import Mathlib

/-!
Task scheduler: lifecycle registry and durable log.

A shallow embedding of `Task.h` and `Scheduler.cpp`.

* `std::vector<Task>` is a `List Task`; a `Task*` into a vector is an index into that list.
* `int` and `std::time_t` values are mathematical integers (`Int`); signed overflow, which the
  language leaves undefined, is outside the model.
* `std::string` is `String`; positions are character positions.
* The file `finished_tasks.csv` is an `Option String`: `none` when the file is absent,
  `some contents` when it is present.
* What the program reads from its surroundings on each call (the clock, whether the log file can
  be opened for reading and for appending, the C library time formatters) is collected in `Env`.
-/

namespace TaskScheduler

/-! ## Task.h -/

/-- Lifecycle status of a task (`enum class Status`). -/
inductive Status where
  | Staged
  | Active
  | Finished
deriving DecidableEq, Repr

/-- The `Task` class: its six public data members. -/
structure Task where
  id : Int
  description : String
  status : Status
  startTime : Int
  finishTime : Int
  estimatedDurationSeconds : Int
deriving DecidableEq, Repr

/-- The constructor `Task::Task(id, description, estimate)`. -/
def Task.ctor (id : Int) (description : String) (estimate : Int) : Task :=
  Task.mk id description Status.Staged 0 0 estimate

/-- The method `Task::markActive`; `now` is the value of `std::time(nullptr)`. -/
def Task.markActive (t : Task) (now : Int) : Task :=
  { t with status := Status.Active, startTime := now }

/-- The method `Task::markFinished`; `now` is the value of `std::time(nullptr)`. -/
def Task.markFinished (t : Task) (now : Int) : Task :=
  { t with status := Status.Finished, finishTime := now }

/-- The label chosen by the `switch` of `Task::getDetails`. -/
def statusStr : Status → String
  | Status.Staged => "Staged"
  | Status.Active => "Active"
  | Status.Finished => "Finished"

/-- The text `Task::getDetails` shows for one timestamp that is not zero: the result of
`std::ctime` (`none` for a null pointer, shown as `N/A`) without its final newline. -/
def ctimeStr (ctime : Int → Option String) (t : Int) : String :=
  match ctime t with
  | none => "N/A"
  | some s =>
    if s.toList.getLast? = some (Char.ofNat 10) then String.mk s.toList.dropLast else s

/-- The method `Task::getDetails`; `ctime` stands for `std::ctime`. -/
def Task.getDetails (ctime : Int → Option String) (t : Task) : String :=
  let result := "[#" ++ toString t.id ++ "] " ++ t.description ++ " | Status: " ++ statusStr t.status
  let result := result ++ (" | Estimate: " ++ toString t.estimatedDurationSeconds ++ " sec")
  let result :=
    if t.startTime ≠ 0 then result ++ (" | Start: " ++ ctimeStr ctime t.startTime)
    else result ++ " | Start: N/A"
  let result :=
    if t.finishTime ≠ 0 then result ++ (" | Finish: " ++ ctimeStr ctime t.finishTime)
    else result ++ " | Finish: N/A"
  result

/-! ## The surroundings of a call -/

/-- What one call reads from outside the program. -/
structure Env where
  /-- The value returned by `std::time(nullptr)` during the call. -/
  now : Int
  /-- Whether `std::ifstream checkFile(filename)` opens the log file when it is present (an
  absent file never opens for reading). -/
  readOk : Bool
  /-- Whether `std::ofstream csvFile(filename, std::ios::app)` opens. -/
  openOk : Bool
  /-- The text produced by `std::put_time(std::localtime(&t), "%Y-%m-%d %H:%M:%S")`. -/
  putTime : Int → String
  /-- The contents found in a vector slot whose element has been destroyed by `erase`; the
  language does not say what a read through a pointer to such a slot yields. -/
  stale : Task

/-! ## Scheduler.cpp: the durable log writer -/

/-- The double-quote character. -/
def dquote : Char := Char.ofNat 34

/-- The call `s.find(c, pos)` of `std::string`: the first position at or after `pos` holding `c`,
`none` for `npos`. -/
def findChar (c : Char) : List Char → Nat → Option Nat
  | [], _ => none
  | x :: xs, 0 => if x = c then some 0 else (findChar c xs 0).map (· + 1)
  | _ :: xs, pos + 1 => (findChar c xs pos).map (· + 1)

theorem findChar_bounds (c : Char) (s : List Char) (pos p : Nat)
    (h : findChar c s pos = some p) : pos ≤ p ∧ p < s.length := by
  induction s generalizing pos p with
  | nil => simp [findChar] at h
  | cons x xs ih =>
    cases pos with
    | zero =>
      simp only [findChar] at h
      split at h
      · simp only [Option.some.injEq] at h
        subst h
        simp
      · cases hq : findChar c xs 0 with
        | none => simp [hq] at h
        | some q =>
          simp only [hq, Option.map_some', Option.some.injEq] at h
          have := ih 0 q hq
          simp only [List.length_cons]
          omega
    | succ n =>
      simp only [findChar] at h
      cases hq : findChar c xs n with
      | none => simp [hq] at h
      | some q =>
        simp only [hq, Option.map_some', Option.some.injEq] at h
        have := ih n q hq
        simp only [List.length_cons]
        omega

/-- The call `s.replace(pos, 1, "\"\"")`: the character at `pos` gives way to two quotes. -/
def replaceWithTwoQuotes (s : List Char) (pos : Nat) : List Char :=
  s.take pos ++ [dquote, dquote] ++ s.drop (pos + 1)

/-- The loop `while ((pos = escapedDesc.find('"', pos)) != npos) { replace; pos += 2; }`. -/
def escapeLoop (s : List Char) (pos : Nat) : List Char :=
  match h : findChar dquote s pos with
  | none => s
  | some p => escapeLoop (replaceWithTwoQuotes s p) (p + 2)
termination_by s.length - pos
decreasing_by
  have hb := findChar_bounds dquote s pos p h
  simp only [replaceWithTwoQuotes, List.length_append, List.length_take, List.length_drop,
    List.length_cons, List.length_nil]
  omega

/-- The variable `escapedDesc` of `logTaskToCSV` when the record is written. -/
def escapedDesc (description : String) : String :=
  if (findChar ',' description.toList 0).isSome || (findChar dquote description.toList 0).isSome then
    String.mk ([dquote] ++ escapeLoop description.toList 0 ++ [dquote])
  else description

/-- The lambda `formatTime` of `logTaskToCSV`. -/
def formatTime (putTime : Int → String) (t : Int) : String :=
  if t = 0 then "N/A" else putTime t

/-- The variable `actualDuration` of `logTaskToCSV`; `std::difftime` is the difference of the two
readings in seconds. -/
def actualDuration (task : Task) : Int :=
  if task.startTime ≠ 0 ∧ task.finishTime ≠ 0 then task.finishTime - task.startTime else 0

/-- The header line of the log file, newline included. -/
def csvHeader : String :=
  "ID,Description,Estimated Duration (sec),Start Time,Finish Time,Actual Duration (sec)\n"

/-- The data line `logTaskToCSV` writes for a task, newline included. -/
def csvRecord (putTime : Int → String) (task : Task) : String :=
  toString task.id ++ "," ++ escapedDesc task.description ++ ","
    ++ toString task.estimatedDurationSeconds ++ ","
    ++ formatTime putTime task.startTime ++ ","
    ++ formatTime putTime task.finishTime ++ ","
    ++ toString (actualDuration task) ++ "\n"

/-- The method `Scheduler::logTaskToCSV`, as a function on the state of the log file. The probe
`std::ifstream checkFile(filename)` is `good()` when the file is present and opens for reading. -/
def logTaskToCSV (env : Env) (file : Option String) (task : Task) : Option String :=
  let fileExists := file.isSome && env.readOk
  if !env.openOk then file
  else
    let opened := file.getD ""
    let afterHeader := if !fileExists then opened ++ csvHeader else opened
    some (afterHeader ++ csvRecord env.putTime task)

/-! ## Scheduler.cpp: the registry -/

/-- The data members of the `Scheduler` class. -/
structure Scheduler where
  stagedTasks : List Task
  activeTasks : List Task
  finishedLog : List Task
  nextId : Int
deriving DecidableEq, Repr

/-- The constructor `Scheduler::Scheduler`. -/
def Scheduler.ctor : Scheduler := Scheduler.mk [] [] [] 1

/-- The method `Scheduler::addTask`. -/
def Scheduler.addTask (s : Scheduler) (description : String) (estimate : Int) : Scheduler :=
  let t := Task.ctor s.nextId description estimate
  { s with stagedTasks := s.stagedTasks ++ [t], nextId := s.nextId + 1 }

/-- The method `Scheduler::findTaskById`: the position of the first task with the given id (the
pointer the source returns), `none` for `nullptr`. -/
def findTaskById (id : Int) : List Task → Option Nat
  | [] => none
  | t :: rest => if t.id = id then some 0 else (findTaskById id rest).map (· + 1)

/-- An update through a pointer to the element at position `i` of a vector. -/
def updateAt (f : Task → Task) : List Task → Nat → List Task
  | [], _ => []
  | t :: rest, 0 => f t :: rest
  | t :: rest, i + 1 => t :: updateAt f rest i

/-- The statement `v.push_back(*t)` for a pointer `t` to position `i` of the vector `src`. -/
def pushBackDeref (v src : List Task) (i : Nat) : List Task :=
  match src[i]? with
  | some t => v ++ [t]
  | none => v

/-- The statement `v.erase(std::remove_if(v.begin(), v.end(), [id](x) { return x.id == id; }),
v.end())`. -/
def eraseById (v : List Task) (id : Int) : List Task :=
  v.filter (fun x => !decide (x.id = id))

/-- The method `Scheduler::startTask`. -/
def Scheduler.startTask (env : Env) (s : Scheduler) (id : Int) : Scheduler :=
  match findTaskById id s.stagedTasks with
  | none => s
  | some i =>
    let staged1 := updateAt (fun t => t.markActive env.now) s.stagedTasks i
    let active1 := pushBackDeref s.activeTasks staged1 i
    let staged2 := eraseById staged1 id
    { s with stagedTasks := staged2, activeTasks := active1 }

/-- The task `logTaskToCSV(*t)` receives in `Scheduler::finishTask`: `t` still points to
position `i` of `activeTasks`, read after the `erase`. Inside the shortened vector that is the
element now at position `i`; past its end it is a destroyed slot. -/
def derefAfterErase (env : Env) (erased : List Task) (i : Nat) : Task :=
  erased.getD i env.stale

/-- The method `Scheduler::finishTask`, on the registry and the log file. -/
def Scheduler.finishTask (env : Env) (s : Scheduler) (file : Option String) (id : Int) :
    Scheduler × Option String :=
  match findTaskById id s.activeTasks with
  | none => (s, file)
  | some i =>
    let active1 := updateAt (fun t => t.markFinished env.now) s.activeTasks i
    let finished1 := pushBackDeref s.finishedLog active1 i
    let active2 := eraseById active1 id
    let file1 := logTaskToCSV env file (derefAfterErase env active2 i)
    ({ s with activeTasks := active2, finishedLog := finished1 }, file1)

/-! ## Runs of the program -/

/-- A registry together with the log file it writes. -/
structure World where
  sched : Scheduler
  file : Option String
deriving DecidableEq, Repr

/-- One call of a public operation of the registry. -/
inductive Op where
  | add (description : String) (estimate : Int)
  | start (id : Int)
  | finish (id : Int)
deriving DecidableEq, Repr

/-- The effect of one call. -/
def step (w : World) (c : Env × Op) : World :=
  match c.2 with
  | Op.add description estimate => World.mk (w.sched.addTask description estimate) w.file
  | Op.start id => World.mk (w.sched.startTask c.1 id) w.file
  | Op.finish id =>
    let r := w.sched.finishTask c.1 w.file id
    World.mk r.1 r.2

/-- The effect of a sequence of calls, first call first. -/
def run (w : World) (calls : List (Env × Op)) : World :=
  calls.foldl step w

/-- A freshly constructed registry next to a log file in the given state. -/
def fresh (file : Option String) : World := World.mk Scheduler.ctor file

/-- The ids held in the three collections, staged first, then active, then finished. -/
def allIds (s : Scheduler) : List Int :=
  s.stagedTasks.map Task.id ++ s.activeTasks.map Task.id ++ s.finishedLog.map Task.id

/-- The number of `addTask` calls in a sequence of calls. -/
def countAdds : List (Env × Op) → Nat
  | [] => 0
  | (_, Op.add _ _) :: rest => countAdds rest + 1
  | (_, _) :: rest => countAdds rest

/-- A sample environment: clock reading `now`, the log file opens for reading and for
appending, times print as `T`. -/
def sampleEnv (now : Int) : Env :=
  Env.mk now true true (fun _ => "T") (Task.ctor 0 "" 0)

/-- The registry reached from a fresh one by a sequence of calls. -/
def reached (file : Option String) (calls : List (Env × Op)) : Scheduler :=
  (run (fresh file) calls).sched

/-- A sample session: two tasks are added and both are started, the first one first. -/
def sampleCalls : List (Env × Op) :=
  [(sampleEnv 5, Op.add "a" 10), (sampleEnv 6, Op.add "b" 20), (sampleEnv 7, Op.start 1),
    (sampleEnv 8, Op.start 2)]

/-- The registry invariant behind single membership: an id is held once, in one collection, when
it lies from 1 up to `nextId - 1`, and not at all otherwise; the collections hold `nextId - 1`
tasks in total. -/
def Registered (s : Scheduler) : Prop :=
  (∀ k : Int, (allIds s).count k = if 1 ≤ k ∧ k < s.nextId then 1 else 0) ∧
    ((s.stagedTasks.length + s.activeTasks.length + s.finishedLog.length : Nat) : Int) + 1
      = s.nextId

/-- A task as the constructor leaves it: staged, both timestamps zero. -/
def IsStaged (t : Task) : Prop :=
  t.status = Status.Staged ∧ t.startTime = 0 ∧ t.finishTime = 0

/-- A started task: active, start time recorded, finish time zero. -/
def IsActive (t : Task) : Prop :=
  t.status = Status.Active ∧ t.startTime ≠ 0 ∧ t.finishTime = 0

/-- A finished task: finished, both timestamps recorded. -/
def IsFinished (t : Task) : Prop :=
  t.status = Status.Finished ∧ t.startTime ≠ 0 ∧ t.finishTime ≠ 0

/-- The status and timestamp invariant of the three collections. -/
def Stamped (s : Scheduler) : Prop :=
  (∀ t ∈ s.stagedTasks, IsStaged t) ∧ (∀ t ∈ s.activeTasks, IsActive t) ∧
    (∀ t ∈ s.finishedLog, IsFinished t)

/-! ## Texts of the log file -/

/-- The line-feed character. -/
def newline : Char := Char.ofNat 10

/-- The six fields `logTaskToCSV` writes for a task, in order. -/
def recordFields (putTime : Int → String) (task : Task) : List String :=
  [toString task.id, escapedDesc task.description, toString task.estimatedDurationSeconds,
    formatTime putTime task.startTime, formatTime putTime task.finishTime,
    toString (actualDuration task)]

/-- The data line of a task without its final newline: the six fields joined by commas. -/
def csvLine (putTime : Int → String) (task : Task) : String :=
  ",".intercalate (recordFields putTime task)

/-- The escaping rule in the words of the specification: every double quote is replaced by two
double quotes, all other characters stay as they are and in order. -/
def doubleQuotes : List Char → List Char
  | [] => []
  | c :: rest => if c = dquote then dquote :: dquote :: doubleQuotes rest else c :: doubleQuotes rest

/-- Where a reader of comma-separated text stands within a record. -/
inductive FieldState where
  | start
  | unquoted
  | quoted
  | quoteSeen
deriving DecidableEq, Repr

/-- A reader of one record by the standard comma-separated rules: a field that begins with a
double quote is quoted and ends at the first double quote not followed by another one, two double
quotes inside it stand for one; any other field ends at a comma; the record ends at a line feed
outside a quoted field, or with the text. `cur` is the field being read. -/
def parseCsvRecord : FieldState → List Char → List Char → List String
  | _, cur, [] => [String.mk cur]
  | FieldState.start, cur, c :: rest =>
    if c = dquote then parseCsvRecord FieldState.quoted cur rest
    else if c = ',' then String.mk cur :: parseCsvRecord FieldState.start [] rest
    else if c = newline then [String.mk cur]
    else parseCsvRecord FieldState.unquoted (cur ++ [c]) rest
  | FieldState.unquoted, cur, c :: rest =>
    if c = ',' then String.mk cur :: parseCsvRecord FieldState.start [] rest
    else if c = newline then [String.mk cur]
    else parseCsvRecord FieldState.unquoted (cur ++ [c]) rest
  | FieldState.quoted, cur, c :: rest =>
    if c = dquote then parseCsvRecord FieldState.quoteSeen cur rest
    else parseCsvRecord FieldState.quoted (cur ++ [c]) rest
  | FieldState.quoteSeen, cur, c :: rest =>
    if c = dquote then parseCsvRecord FieldState.quoted (cur ++ [dquote]) rest
    else if c = ',' then String.mk cur :: parseCsvRecord FieldState.start [] rest
    else if c = newline then [String.mk cur]
    else parseCsvRecord FieldState.unquoted (cur ++ [c]) rest

/-- A character that is neither a comma, nor a double quote, nor a line feed. -/
def Plain (c : Char) : Prop :=
  c ≠ ',' ∧ c ≠ dquote ∧ c ≠ newline

/-! ## What a call reports -/

/-- The value `Scheduler::addTask` returns: its return type is `void`. -/
def Scheduler.addTaskReturn (_s : Scheduler) (_description : String) (_estimate : Int) : Unit :=
  ()

/-- The value `Scheduler::startTask` returns: its return type is `void`. -/
def Scheduler.startTaskReturn (_env : Env) (_s : Scheduler) (_id : Int) : Unit :=
  ()

/-- The value `Scheduler::finishTask` returns: its return type is `void`. -/
def Scheduler.finishTaskReturn (_env : Env) (_s : Scheduler) (_file : Option String) (_id : Int) :
    Unit :=
  ()

/-- The text `Scheduler::addTask` writes to `std::cout`. -/
def Scheduler.addTaskOut (s : Scheduler) (_description : String) (_estimate : Int) : String :=
  "Added task [#" ++ toString s.nextId ++ "] to staged tasks.\n"

/-- The text `Scheduler::startTask` writes to `std::cout`. -/
def Scheduler.startTaskOut (s : Scheduler) (id : Int) : String :=
  match findTaskById id s.stagedTasks with
  | none => "Task [#" ++ toString id ++ "] not found in staged tasks.\n"
  | some _ => "Started task [#" ++ toString id ++ "].\n"

/-- The text `Scheduler::logTaskToCSV` writes to `std::cout` (its diagnostic on a failed open
goes to `std::cerr`). -/
def logTaskToCSVOut (env : Env) : String :=
  if !env.openOk then "" else "Task logged to finished_tasks.csv\n"

/-- The text `Scheduler::finishTask` writes to `std::cout`. -/
def Scheduler.finishTaskOut (env : Env) (s : Scheduler) (id : Int) : String :=
  match findTaskById id s.activeTasks with
  | none => "Task [#" ++ toString id ++ "] not found in active tasks.\n"
  | some _ => logTaskToCSVOut env ++ ("Finished task [#" ++ toString id ++ "].\n")

/-- The status message the `Start Task` case of the handler in `main_ftxui.cpp` sets after it
has called `scheduler.startTask(id)`. -/
def ftxuiStartStatus (_env : Env) (_s : Scheduler) (_id : Int) : String :=
  "✓ Task started!"

/-- The status message the `Finish Task` case of the handler in `main_ftxui.cpp` sets after it
has called `scheduler.finishTask(id)`. -/
def ftxuiFinishStatus (_env : Env) (_s : Scheduler) (_file : Option String) (_id : Int) :
    String :=
  "✓ Task finished and logged to CSV!"

/-! ## Tasks and their creation -/

/-- All tasks of a registry: staged, then active, then finished. -/
def allTasks (s : Scheduler) : List Task :=
  s.stagedTasks ++ s.activeTasks ++ s.finishedLog

/-- The arguments of the `addTask` calls in a sequence of calls, in call order. -/
def addArgs : List (Env × Op) → List (String × Int)
  | [] => []
  | (_, Op.add description estimate) :: rest => (description, estimate) :: addArgs rest
  | (_, _) :: rest => addArgs rest

/-! ## Sample inputs -/

/-- A sample description holding a comma and a double quote. -/
def sampleDescription : String := String.mk ['a', ',', dquote, 'b']

/-- The ids of the `startTask` calls of a sequence that find their task, in call order, the
sequence being run from the world `w`. -/
def startOrder : World → List (Env × Op) → List Int
  | _, [] => []
  | w, c :: rest =>
    match c.2 with
    | Op.start id =>
      if (findTaskById id w.sched.stagedTasks).isSome then id :: startOrder (step w c) rest
      else startOrder (step w c) rest
    | _ => startOrder (step w c) rest

/-- The ids of the `finishTask` calls of a sequence that find their task, in call order, the
sequence being run from the world `w`. -/
def finishOrder : World → List (Env × Op) → List Int
  | _, [] => []
  | w, c :: rest =>
    match c.2 with
    | Op.finish id =>
      if (findTaskById id w.sched.activeTasks).isSome then id :: finishOrder (step w c) rest
      else finishOrder (step w c) rest
    | _ => finishOrder (step w c) rest

/-- The registry invariant behind the listing order: staged ids increase strictly and lie below
`nextId`. -/
def StagedSorted (s : Scheduler) : Prop :=
  (s.stagedTasks.map Task.id).Pairwise (· < ·) ∧ ∀ t ∈ s.stagedTasks, t.id < s.nextId

/-- A registry with a violated invariant: two staged tasks share the id 1. -/
def sampleDuplicates : Scheduler :=
  Scheduler.mk [Task.ctor 2 "x" 5, Task.ctor 1 "a" 10, Task.ctor 3 "y" 6, Task.ctor 1 "b" 20]
    [Task.mk 1 "c" Status.Active 4 0 30, Task.mk 7 "z" Status.Active 5 0 8,
      Task.mk 1 "d" Status.Active 6 0 40] [] 8

/-! ## Lemmas on the vector operations -/

theorem findTaskById_eq_none (id : Int) (l : List Task) :
    findTaskById id l = none ↔ ∀ t ∈ l, t.id ≠ id := by
  induction l with
  | nil => simp [findTaskById]
  | cons x xs ih =>
    by_cases hx : x.id = id
    · simp [findTaskById, hx]
    · simp [findTaskById, hx, ih]

theorem findTaskById_append (id : Int) (pre post : List Task) (t : Task)
    (hpre : ∀ x ∈ pre, x.id ≠ id) (ht : t.id = id) :
    findTaskById id (pre ++ t :: post) = some pre.length := by
  induction pre with
  | nil => simp [findTaskById, ht]
  | cons x xs ih =>
    have hx : x.id ≠ id := hpre x (List.mem_cons_self x xs)
    have hxs : ∀ y ∈ xs, y.id ≠ id := fun y hy => hpre y (List.mem_cons_of_mem x hy)
    simp [findTaskById, hx, ih hxs]

theorem findTaskById_split (id : Int) (l : List Task) (i : Nat)
    (h : findTaskById id l = some i) :
    ∃ pre t post, l = pre ++ t :: post ∧ pre.length = i ∧ t.id = id ∧ ∀ x ∈ pre, x.id ≠ id := by
  induction l generalizing i with
  | nil => simp [findTaskById] at h
  | cons x xs ih =>
    by_cases hx : x.id = id
    · simp only [findTaskById, hx, if_true, Option.some.injEq] at h
      exact ⟨[], x, xs, by simp, by simpa using h, hx, by simp⟩
    · simp only [findTaskById, hx, if_false] at h
      cases hq : findTaskById id xs with
      | none => simp [hq] at h
      | some q =>
        simp only [hq, Option.map_some', Option.some.injEq] at h
        obtain ⟨pre, t, post, hl, hlen, ht, hpre⟩ := ih q hq
        refine ⟨x :: pre, t, post, by simp [hl], by simp [hlen, h], ht, ?_⟩
        intro y hy
        rcases List.mem_cons.mp hy with rfl | hy
        · exact hx
        · exact hpre y hy

theorem updateAt_append (f : Task → Task) (pre post : List Task) (t : Task) :
    updateAt f (pre ++ t :: post) pre.length = pre ++ f t :: post := by
  induction pre with
  | nil => simp [updateAt]
  | cons x xs ih => simp [updateAt, ih]

theorem pushBackDeref_append (v pre post : List Task) (t : Task) :
    pushBackDeref v (pre ++ t :: post) pre.length = v ++ [t] := by
  have h : (pre ++ t :: post)[pre.length]? = some t := by
    induction pre with
    | nil => simp
    | cons x xs ih => simpa using ih
  simp only [pushBackDeref, h]

theorem mem_eraseById (v : List Task) (id : Int) (t : Task) :
    t ∈ eraseById v id ↔ t ∈ v ∧ t.id ≠ id := by
  simp [eraseById, List.mem_filter]

theorem eraseById_append (v w : List Task) (id : Int) :
    eraseById (v ++ w) id = eraseById v id ++ eraseById w id := by
  simp [eraseById]

theorem eraseById_of_absent (v : List Task) (id : Int) (h : ∀ x ∈ v, x.id ≠ id) :
    eraseById v id = v := by
  simp only [eraseById, List.filter_eq_self]
  intro x hx
  simp [h x hx]

theorem eraseById_split (pre post : List Task) (t : Task) (id : Int)
    (hpre : ∀ x ∈ pre, x.id ≠ id) (ht : t.id = id) :
    eraseById (pre ++ t :: post) id = pre ++ eraseById post id := by
  rw [eraseById_append, eraseById_of_absent pre id hpre]
  simp [eraseById, ht]

/-- The general effect of a successful `startTask`: the first match, marked active, goes to the
end of `activeTasks`, and every task with that id leaves `stagedTasks`. -/
theorem startTask_split (env : Env) (s : Scheduler) (id : Int) (pre post : List Task) (t : Task)
    (hs : s.stagedTasks = pre ++ t :: post) (hpre : ∀ x ∈ pre, x.id ≠ id) (ht : t.id = id) :
    s.startTask env id =
      Scheduler.mk (pre ++ eraseById post id) (s.activeTasks ++ [t.markActive env.now])
        s.finishedLog s.nextId := by
  have hid : (t.markActive env.now).id = id := ht
  simp only [Scheduler.startTask, hs, findTaskById_append id pre post t hpre ht,
    updateAt_append, pushBackDeref_append, eraseById_split pre post _ id hpre hid]

/-- The general effect of a successful `finishTask` on the registry and on the log file. -/
theorem finishTask_split (env : Env) (s : Scheduler) (file : Option String) (id : Int)
    (pre post : List Task) (t : Task)
    (hs : s.activeTasks = pre ++ t :: post) (hpre : ∀ x ∈ pre, x.id ≠ id) (ht : t.id = id) :
    s.finishTask env file id =
      (Scheduler.mk s.stagedTasks (pre ++ eraseById post id)
          (s.finishedLog ++ [t.markFinished env.now]) s.nextId,
        logTaskToCSV env file ((pre ++ eraseById post id).getD pre.length env.stale)) := by
  have hid : (t.markFinished env.now).id = id := ht
  simp only [Scheduler.finishTask, hs, findTaskById_append id pre post t hpre ht,
    updateAt_append, pushBackDeref_append, eraseById_split pre post _ id hpre hid,
    derefAfterErase]

theorem startTask_absent (env : Env) (s : Scheduler) (id : Int)
    (h : ∀ t ∈ s.stagedTasks, t.id ≠ id) : s.startTask env id = s := by
  simp [Scheduler.startTask, (findTaskById_eq_none id s.stagedTasks).mpr h]

theorem finishTask_absent (env : Env) (s : Scheduler) (file : Option String) (id : Int)
    (h : ∀ t ∈ s.activeTasks, t.id ≠ id) : s.finishTask env file id = (s, file) := by
  simp [Scheduler.finishTask, (findTaskById_eq_none id s.activeTasks).mpr h]

/-! ## The single-membership invariant -/

theorem count_ids_eraseById (v : List Task) (id k : Int) :
    ((eraseById v id).map Task.id).count k = if k = id then 0 else (v.map Task.id).count k := by
  induction v with
  | nil => simp [eraseById]
  | cons x xs ih =>
    simp only [eraseById] at ih
    by_cases hk : k = id
    · subst hk
      simp only [if_true] at ih
      by_cases hx : x.id = k
      · simp [eraseById, hx, ih]
      · simp [eraseById, hx, ih, List.count_cons]
    · simp only [if_neg hk] at ih
      by_cases hx : x.id = id
      · have hne : ¬ id = k := fun h => hk h.symm
        simp [eraseById, hx, hk, ih, List.count_cons, hne]
      · simp [eraseById, hx, hk, ih, List.count_cons]

theorem length_eraseById (v : List Task) (id : Int) :
    (eraseById v id).length + (v.map Task.id).count id = v.length := by
  induction v with
  | nil => simp [eraseById]
  | cons x xs ih =>
    simp only [eraseById] at ih
    by_cases hx : x.id = id
    · simp [eraseById, hx, List.count_cons]
      omega
    · simp [eraseById, hx, List.count_cons]
      omega

theorem count_ids_pos (v : List Task) (t : Task) (h : t ∈ v) :
    1 ≤ (v.map Task.id).count t.id :=
  List.count_pos_iff.mpr (List.mem_map_of_mem Task.id h)

theorem registered_ctor : Registered Scheduler.ctor := by
  constructor
  · intro k
    have : ¬ (1 ≤ k ∧ k < 1) := by omega
    simp [allIds, Scheduler.ctor, this]
  · simp [Scheduler.ctor]

theorem registered_addTask (s : Scheduler) (description : String) (estimate : Int)
    (h : Registered s) : Registered (s.addTask description estimate) := by
  obtain ⟨hc, hn⟩ := h
  constructor
  · intro k
    have hk := hc k
    simp only [allIds, List.count_append] at hk
    simp only [allIds, Scheduler.addTask, Task.ctor, List.map_append, List.map_cons, List.map_nil,
      List.count_append, List.count_cons, List.count_nil]
    by_cases h1 : s.nextId = k
    · subst h1
      have hno : ¬ (1 ≤ s.nextId ∧ s.nextId < s.nextId) := by omega
      have hyes : 1 ≤ s.nextId ∧ s.nextId < s.nextId + 1 := by omega
      rw [if_neg hno] at hk
      simp only [beq_self_eq_true, if_true, if_pos hyes]
      omega
    · have hb : (s.nextId == k) = false := by simpa using h1
      simp only [hb]
      by_cases h2 : 1 ≤ k ∧ k < s.nextId
      · have h3 : 1 ≤ k ∧ k < s.nextId + 1 := by omega
        rw [if_pos h2] at hk
        rw [if_pos h3]
        simp
        omega
      · have h3 : ¬ (1 ≤ k ∧ k < s.nextId + 1) := by omega
        rw [if_neg h2] at hk
        rw [if_neg h3]
        simp
        omega
  · simp only [Scheduler.addTask, List.length_append, List.length_cons, List.length_nil]
    push_cast at hn ⊢
    omega

/-- The registry after relocating the first task with id `id` from one collection to the next:
the shape shared by `startTask` and `finishTask`. -/
theorem registered_move (src dst other : List Task) (n id : Int) (t u : Task)
    (ht : t ∈ src) (hid : t.id = id) (hu : u.id = id)
    (hc : ∀ k : Int, (src.map Task.id).count k + (dst.map Task.id).count k
        + (other.map Task.id).count k = if 1 ≤ k ∧ k < n then 1 else 0)
    (hn : ((src.length + dst.length + other.length : Nat) : Int) + 1 = n) :
    (∀ k : Int, ((eraseById src id).map Task.id).count k + ((dst ++ [u]).map Task.id).count k
        + (other.map Task.id).count k = if 1 ≤ k ∧ k < n then 1 else 0) ∧
      (((eraseById src id).length + (dst ++ [u]).length + other.length : Nat) : Int) + 1 = n := by
  have hpos := count_ids_pos src t ht
  rw [hid] at hpos
  have hcid := hc id
  have hlen := length_eraseById src id
  have hone : (src.map Task.id).count id = 1 := by
    split at hcid <;> omega
  constructor
  · intro k
    have hk := hc k
    rw [count_ids_eraseById]
    simp only [List.map_append, List.map_cons, List.map_nil, List.count_append, List.count_cons,
      List.count_nil, hu]
    by_cases hkid : k = id
    · subst hkid
      simp only [if_true, beq_self_eq_true]
      split at hk <;> rename_i hr
      · rw [if_pos hr]
        omega
      · omega
    · have hb : (id == k) = false := by
        simpa using fun h : id = k => hkid h.symm
      simp only [if_neg hkid, hb]
      simpa using hk
  · simp only [List.length_append, List.length_cons, List.length_nil]
    rw [← hn]
    push_cast
    omega

theorem registered_startTask (env : Env) (s : Scheduler) (id : Int) (h : Registered s) :
    Registered (s.startTask env id) := by
  cases hf : findTaskById id s.stagedTasks with
  | none =>
    rw [startTask_absent env s id ((findTaskById_eq_none _ _).mp hf)]
    exact h
  | some i =>
    obtain ⟨pre, t, post, hl, _, ht, hpre⟩ := findTaskById_split id _ i hf
    rw [startTask_split env s id pre post t hl hpre ht, ← eraseById_split pre post t id hpre ht,
      ← hl]
    obtain ⟨hc, hn⟩ := h
    have hmem : t ∈ s.stagedTasks := by rw [hl]; simp
    have hc1 : ∀ k : Int, (s.stagedTasks.map Task.id).count k + (s.activeTasks.map Task.id).count k
        + (s.finishedLog.map Task.id).count k = if 1 ≤ k ∧ k < s.nextId then 1 else 0 := by
      intro k
      have hk := hc k
      simp only [allIds, List.count_append] at hk
      exact hk
    have hm := registered_move s.stagedTasks s.activeTasks s.finishedLog s.nextId id t
      (t.markActive env.now) hmem ht ht hc1 hn
    constructor
    · intro k
      simp only [allIds, List.count_append]
      exact hm.1 k
    · exact hm.2

theorem registered_finishTask (env : Env) (s : Scheduler) (file : Option String) (id : Int)
    (h : Registered s) : Registered (s.finishTask env file id).1 := by
  cases hf : findTaskById id s.activeTasks with
  | none =>
    rw [finishTask_absent env s file id ((findTaskById_eq_none _ _).mp hf)]
    exact h
  | some i =>
    obtain ⟨pre, t, post, hl, _, ht, hpre⟩ := findTaskById_split id _ i hf
    rw [finishTask_split env s file id pre post t hl hpre ht,
      ← eraseById_split pre post t id hpre ht, ← hl]
    obtain ⟨hc, hn⟩ := h
    have hmem : t ∈ s.activeTasks := by rw [hl]; simp
    have hc1 : ∀ k : Int, (s.activeTasks.map Task.id).count k + (s.finishedLog.map Task.id).count k
        + (s.stagedTasks.map Task.id).count k = if 1 ≤ k ∧ k < s.nextId then 1 else 0 := by
      intro k
      have hk := hc k
      simp only [allIds, List.count_append] at hk
      rw [← hk]
      omega
    have hn1 : ((s.activeTasks.length + s.finishedLog.length + s.stagedTasks.length : Nat) : Int)
        + 1 = s.nextId := by
      rw [← hn]
      push_cast
      omega
    have hm := registered_move s.activeTasks s.finishedLog s.stagedTasks s.nextId id t
      (t.markFinished env.now) hmem ht ht hc1 hn1
    constructor
    · intro k
      simp only [allIds, List.count_append]
      rw [← hm.1 k]
      omega
    · show ((s.stagedTasks.length + (eraseById s.activeTasks id).length
          + (s.finishedLog ++ [t.markFinished env.now]).length : Nat) : Int) + 1 = s.nextId
      rw [← hm.2]
      push_cast
      omega

theorem registered_step (w : World) (c : Env × Op) (h : Registered w.sched) :
    Registered (step w c).sched := by
  obtain ⟨env, op⟩ := c
  cases op with
  | add description estimate => exact registered_addTask w.sched description estimate h
  | start id => exact registered_startTask env w.sched id h
  | finish id => exact registered_finishTask env w.sched w.file id h

theorem registered_run (w : World) (calls : List (Env × Op)) (h : Registered w.sched) :
    Registered (run w calls).sched := by
  induction calls generalizing w with
  | nil => exact h
  | cons c rest ih => exact ih (step w c) (registered_step w c h)

theorem registered_reached (file : Option String) (calls : List (Env × Op)) :
    Registered (reached file calls) :=
  registered_run (fresh file) calls registered_ctor

/-- In a registry satisfying the invariant no active task shares its id with a staged one. -/
theorem registered_staged_not_active (s : Scheduler) (h : Registered s) (t : Task)
    (ht : t ∈ s.stagedTasks) : ∀ a ∈ s.activeTasks, a.id ≠ t.id := by
  intro a ha heq
  have h1 := count_ids_pos s.stagedTasks t ht
  have h2 := count_ids_pos s.activeTasks a ha
  rw [heq] at h2
  have hk := h.1 t.id
  simp only [allIds, List.count_append] at hk
  split at hk <;> omega

/-! ## The status and timestamp invariant -/

theorem staged_ctor : ∀ t ∈ Scheduler.ctor.stagedTasks, IsStaged t := by
  simp [Scheduler.ctor]

theorem staged_step (w : World) (c : Env × Op) (h : ∀ t ∈ w.sched.stagedTasks, IsStaged t) :
    ∀ t ∈ (step w c).sched.stagedTasks, IsStaged t := by
  obtain ⟨env, op⟩ := c
  cases op with
  | add description estimate =>
    intro t ht
    simp only [step, Scheduler.addTask, List.mem_append, List.mem_singleton] at ht
    rcases ht with ht | rfl
    · exact h t ht
    · exact ⟨rfl, rfl, rfl⟩
  | start id =>
    intro t ht
    simp only [step] at ht
    cases hf : findTaskById id w.sched.stagedTasks with
    | none =>
      rw [startTask_absent env w.sched id ((findTaskById_eq_none _ _).mp hf)] at ht
      exact h t ht
    | some i =>
      obtain ⟨pre, u, post, hl, _, hu, hpre⟩ := findTaskById_split id _ i hf
      rw [startTask_split env w.sched id pre post u hl hpre hu] at ht
      simp only [List.mem_append, mem_eraseById] at ht
      apply h t
      rw [hl]
      rcases ht with ht | ht
      · exact List.mem_append_left _ ht
      · exact List.mem_append_right _ (List.mem_cons_of_mem _ ht.1)
  | finish id =>
    intro t ht
    simp only [step] at ht
    cases hf : findTaskById id w.sched.activeTasks with
    | none =>
      rw [finishTask_absent env w.sched w.file id ((findTaskById_eq_none _ _).mp hf)] at ht
      exact h t ht
    | some i =>
      obtain ⟨pre, u, post, hl, _, hu, hpre⟩ := findTaskById_split id _ i hf
      rw [finishTask_split env w.sched w.file id pre post u hl hpre hu] at ht
      exact h t ht

theorem staged_run (w : World) (calls : List (Env × Op))
    (h : ∀ t ∈ w.sched.stagedTasks, IsStaged t) :
    ∀ t ∈ (run w calls).sched.stagedTasks, IsStaged t := by
  induction calls generalizing w with
  | nil => exact h
  | cons c rest ih => exact ih (step w c) (staged_step w c h)

theorem stamped_step (w : World) (c : Env × Op) (hnow : c.1.now ≠ 0) (h : Stamped w.sched) :
    Stamped (step w c).sched := by
  refine ⟨staged_step w c h.1, ?_, ?_⟩
  · obtain ⟨env, op⟩ := c
    cases op with
    | add description estimate => exact h.2.1
    | start id =>
      intro t ht
      simp only [step] at ht
      cases hf : findTaskById id w.sched.stagedTasks with
      | none =>
        rw [startTask_absent env w.sched id ((findTaskById_eq_none _ _).mp hf)] at ht
        exact h.2.1 t ht
      | some i =>
        obtain ⟨pre, u, post, hl, _, hu, hpre⟩ := findTaskById_split id _ i hf
        rw [startTask_split env w.sched id pre post u hl hpre hu] at ht
        simp only [List.mem_append, List.mem_singleton] at ht
        rcases ht with ht | rfl
        · exact h.2.1 t ht
        · have hmem : u ∈ w.sched.stagedTasks := by rw [hl]; simp
          exact ⟨rfl, hnow, (h.1 u hmem).2.2⟩
    | finish id =>
      intro t ht
      simp only [step] at ht
      cases hf : findTaskById id w.sched.activeTasks with
      | none =>
        rw [finishTask_absent env w.sched w.file id ((findTaskById_eq_none _ _).mp hf)] at ht
        exact h.2.1 t ht
      | some i =>
        obtain ⟨pre, u, post, hl, _, hu, hpre⟩ := findTaskById_split id _ i hf
        rw [finishTask_split env w.sched w.file id pre post u hl hpre hu] at ht
        simp only [List.mem_append, mem_eraseById] at ht
        apply h.2.1 t
        rw [hl]
        rcases ht with ht | ht
        · exact List.mem_append_left _ ht
        · exact List.mem_append_right _ (List.mem_cons_of_mem _ ht.1)
  · obtain ⟨env, op⟩ := c
    cases op with
    | add description estimate => exact h.2.2
    | start id =>
      intro t ht
      simp only [step] at ht
      cases hf : findTaskById id w.sched.stagedTasks with
      | none =>
        rw [startTask_absent env w.sched id ((findTaskById_eq_none _ _).mp hf)] at ht
        exact h.2.2 t ht
      | some i =>
        obtain ⟨pre, u, post, hl, _, hu, hpre⟩ := findTaskById_split id _ i hf
        rw [startTask_split env w.sched id pre post u hl hpre hu] at ht
        exact h.2.2 t ht
    | finish id =>
      intro t ht
      simp only [step] at ht
      cases hf : findTaskById id w.sched.activeTasks with
      | none =>
        rw [finishTask_absent env w.sched w.file id ((findTaskById_eq_none _ _).mp hf)] at ht
        exact h.2.2 t ht
      | some i =>
        obtain ⟨pre, u, post, hl, _, hu, hpre⟩ := findTaskById_split id _ i hf
        rw [finishTask_split env w.sched w.file id pre post u hl hpre hu] at ht
        simp only [List.mem_append, List.mem_singleton] at ht
        rcases ht with ht | rfl
        · exact h.2.2 t ht
        · have hmem : u ∈ w.sched.activeTasks := by rw [hl]; simp
          exact ⟨rfl, (h.2.1 u hmem).2.1, hnow⟩

theorem stamped_run (w : World) (calls : List (Env × Op)) (hnow : ∀ c ∈ calls, c.1.now ≠ 0)
    (h : Stamped w.sched) : Stamped (run w calls).sched := by
  induction calls generalizing w with
  | nil => exact h
  | cons c rest ih =>
    exact ih (step w c) (fun d hd => hnow d (List.mem_cons_of_mem c hd))
      (stamped_step w c (hnow c (List.mem_cons_self c rest)) h)

/-! ## The id counter -/

theorem startTask_nextId (env : Env) (s : Scheduler) (id : Int) :
    (s.startTask env id).nextId = s.nextId := by
  simp only [Scheduler.startTask]
  split <;> rfl

theorem finishTask_nextId (env : Env) (s : Scheduler) (file : Option String) (id : Int) :
    (s.finishTask env file id).1.nextId = s.nextId := by
  simp only [Scheduler.finishTask]
  split <;> rfl

theorem nextId_run (w : World) (calls : List (Env × Op)) :
    (run w calls).sched.nextId = w.sched.nextId + countAdds calls := by
  induction calls generalizing w with
  | nil => simp [run, countAdds]
  | cons c rest ih =>
    obtain ⟨env, op⟩ := c
    have hrun : run w ((env, op) :: rest) = run (step w (env, op)) rest := rfl
    rw [hrun, ih]
    cases op with
    | add description estimate =>
      simp only [step, Scheduler.addTask, countAdds]
      push_cast
      omega
    | start id => simp only [step, startTask_nextId, countAdds]
    | finish id => simp only [step, finishTask_nextId, countAdds]

theorem ids_nodup_split (pre post : List Task) (t : Task)
    (h : ((pre ++ t :: post).map Task.id).Nodup) :
    (∀ x ∈ pre, x.id ≠ t.id) ∧ (∀ x ∈ post, x.id ≠ t.id) := by
  simp only [List.map_append, List.map_cons, List.nodup_append, List.nodup_cons, List.mem_map,
    not_exists, not_and] at h
  obtain ⟨_, ⟨hpost, _⟩, hdisj⟩ := h
  constructor
  · intro x hx heq
    exact hdisj (List.mem_map_of_mem Task.id hx) (by rw [heq]; exact List.mem_cons_self _ _)
  · intro x hx heq
    exact hpost x hx heq

/-! ## The quote-doubling loop -/

theorem findChar_zero_none (c : Char) (s : List Char) : findChar c s 0 = none ↔ c ∉ s := by
  induction s with
  | nil => simp [findChar]
  | cons x xs ih =>
    by_cases hx : x = c
    · simp [findChar, hx]
    · have hne : ¬ c = x := fun h => hx h.symm
      simp [findChar, hx, hne, ih]

theorem findChar_zero_split (c : Char) (s : List Char) (k : Nat) (h : findChar c s 0 = some k) :
    ∃ mid rest, s = mid ++ c :: rest ∧ mid.length = k ∧ c ∉ mid := by
  induction s generalizing k with
  | nil => simp [findChar] at h
  | cons x xs ih =>
    by_cases hx : x = c
    · simp only [findChar, hx, if_true, Option.some.injEq] at h
      exact ⟨[], xs, by simp [hx], by simpa using h, by simp⟩
    · simp only [findChar, hx, if_false] at h
      cases hq : findChar c xs 0 with
      | none => simp [hq] at h
      | some q =>
        simp only [hq, Option.map_some', Option.some.injEq] at h
        obtain ⟨mid, rest, hs, hlen, hmid⟩ := ih q hq
        refine ⟨x :: mid, rest, by simp [hs], by simp [hlen, h], ?_⟩
        intro hmem
        rcases List.mem_cons.mp hmem with h1 | h1
        · exact hx h1.symm
        · exact hmid h1

theorem findChar_append_length (c : Char) (pre suf : List Char) :
    findChar c (pre ++ suf) pre.length = (findChar c suf 0).map (· + pre.length) := by
  induction pre with
  | nil => simp
  | cons x xs ih =>
    show findChar c (x :: (xs ++ suf)) (xs.length + 1) = _
    rw [findChar, ih]
    cases findChar c suf 0 <;> simp [Nat.add_assoc]

theorem doubleQuotes_of_absent (l : List Char) (h : dquote ∉ l) : doubleQuotes l = l := by
  induction l with
  | nil => rfl
  | cons x xs ih =>
    have hx : ¬ x = dquote := fun e => h (by simp [e])
    have hxs : dquote ∉ xs := fun e => h (List.mem_cons_of_mem x e)
    simp [doubleQuotes, hx, ih hxs]

theorem doubleQuotes_append (l m : List Char) :
    doubleQuotes (l ++ m) = doubleQuotes l ++ doubleQuotes m := by
  induction l with
  | nil => rfl
  | cons x xs ih =>
    by_cases hx : x = dquote
    · simp [doubleQuotes, hx, ih]
    · simp [doubleQuotes, hx, ih]

theorem replaceWithTwoQuotes_append (pre mid rest : List Char) :
    replaceWithTwoQuotes (pre ++ (mid ++ dquote :: rest)) (mid.length + pre.length)
      = (pre ++ mid ++ [dquote, dquote]) ++ rest := by
  have h : mid.length + pre.length = (pre ++ mid).length := by simp [Nat.add_comm]
  have hl : pre ++ (mid ++ dquote :: rest) = (pre ++ mid) ++ dquote :: rest := by simp
  rw [replaceWithTwoQuotes, h, hl, List.take_left, List.drop_append]
  simp

/-- The loop started at the end of `pre` leaves `pre` alone and doubles the quotes of the rest;
`n` bounds the length of the rest. -/
theorem escapeLoop_append (n : Nat) (pre suf : List Char) (hn : suf.length ≤ n) :
    escapeLoop (pre ++ suf) pre.length = pre ++ doubleQuotes suf := by
  induction n generalizing pre suf with
  | zero =>
    have hs : suf = [] := List.length_eq_zero.mp (Nat.le_zero.mp hn)
    subst hs
    rw [escapeLoop]
    split
    · simp [doubleQuotes]
    · rename_i p hp
      have hb := findChar_bounds dquote _ _ p hp
      simp at hb
      omega
  | succ n ih =>
    rw [escapeLoop]
    split
    · rename_i hnone
      rw [findChar_append_length] at hnone
      have habs : dquote ∉ suf := by
        apply (findChar_zero_none dquote suf).mp
        cases hq : findChar dquote suf 0 with
        | none => rfl
        | some q => simp [hq] at hnone
      rw [doubleQuotes_of_absent suf habs]
    · rename_i p hp
      rw [findChar_append_length] at hp
      cases hq : findChar dquote suf 0 with
      | none => simp [hq] at hp
      | some k =>
        simp only [hq, Option.map_some', Option.some.injEq] at hp
        obtain ⟨mid, rest, hs, hlen, hmid⟩ := findChar_zero_split dquote suf k hq
        subst hs
        subst hlen
        subst hp
        rw [replaceWithTwoQuotes_append]
        have hpos : mid.length + pre.length + 2 = (pre ++ mid ++ [dquote, dquote]).length := by
          simp
          omega
        rw [hpos, ih (pre ++ mid ++ [dquote, dquote]) rest (by simp at hn; omega)]
        rw [doubleQuotes_append, doubleQuotes_of_absent mid hmid]
        simp [doubleQuotes]

theorem escapeLoop_eq_doubleQuotes (s : List Char) : escapeLoop s 0 = doubleQuotes s := by
  have h := escapeLoop_append s.length [] s (Nat.le_refl _)
  simpa using h

theorem findChar_isSome (c : Char) (s : List Char) : (findChar c s 0).isSome = true ↔ c ∈ s := by
  cases h : findChar c s 0 with
  | none =>
    have := (findChar_zero_none c s).mp h
    simp [this]
  | some k =>
    obtain ⟨mid, rest, hs, _, _⟩ := findChar_zero_split c s k h
    simp [hs]

theorem escapedDesc_eq (d : String) :
    escapedDesc d =
      if ',' ∈ d.toList ∨ dquote ∈ d.toList then
        String.mk ([dquote] ++ doubleQuotes d.toList ++ [dquote])
      else d := by
  by_cases h : ',' ∈ d.toList ∨ dquote ∈ d.toList
  · have h1 : ((findChar ',' d.toList 0).isSome || (findChar dquote d.toList 0).isSome) = true := by
      rw [Bool.or_eq_true, findChar_isSome, findChar_isSome]
      exact h
    rw [if_pos h, escapedDesc, if_pos h1, escapeLoop_eq_doubleQuotes]
  · have h1 : ¬ ((findChar ',' d.toList 0).isSome || (findChar dquote d.toList 0).isSome) = true := by
      rw [Bool.or_eq_true, findChar_isSome, findChar_isSome]
      exact h
    rw [if_neg h, escapedDesc, if_neg h1]

/-! ## Characters of the written fields -/

theorem digitChar_isDigit (k : Nat) (hk : k < 10) : (Nat.digitChar k).isDigit = true := by
  interval_cases k <;> decide

theorem toDigitsCore_isDigit (fuel n : Nat) (ds : List Char)
    (hds : ∀ c ∈ ds, c.isDigit = true) :
    ∀ c ∈ Nat.toDigitsCore 10 fuel n ds, c.isDigit = true := by
  induction fuel generalizing n ds with
  | zero => simpa [Nat.toDigitsCore] using hds
  | succ f ih =>
    have hd : (Nat.digitChar (n % 10)).isDigit = true :=
      digitChar_isDigit _ (Nat.mod_lt _ (by decide))
    have hcons : ∀ c ∈ Nat.digitChar (n % 10) :: ds, c.isDigit = true := by
      intro c hc
      rcases List.mem_cons.mp hc with h | h
      · rw [h]; exact hd
      · exact hds c h
    simp only [Nat.toDigitsCore]
    split
    · exact hcons
    · exact ih _ _ hcons

theorem toString_nat_isDigit (n : Nat) : ∀ c ∈ (toString n).toList, c.isDigit = true := by
  intro c hc
  have h : (toString n).toList = Nat.toDigits 10 n := rfl
  rw [h] at hc
  exact toDigitsCore_isDigit _ _ [] (by simp) c hc

/-- A decimal rendering holds digits and at most a minus sign. -/
theorem toString_int_chars (n : Int) :
    ∀ c ∈ (toString n).toList, c.isDigit = true ∨ c = '-' := by
  intro c hc
  cases n with
  | ofNat m =>
    have h : (toString (Int.ofNat m)).toList = (toString m).toList := rfl
    rw [h] at hc
    exact Or.inl (toString_nat_isDigit m c hc)
  | negSucc m =>
    have h : (toString (Int.negSucc m)).toList = '-' :: (toString (m + 1)).toList := rfl
    rw [h] at hc
    rcases List.mem_cons.mp hc with h1 | h1
    · exact Or.inr h1
    · exact Or.inl (toString_nat_isDigit (m + 1) c h1)

theorem toString_int_plain (n : Int) : ∀ c ∈ (toString n).toList, Plain c := by
  intro c hc
  rcases toString_int_chars n c hc with h | h
  · refine ⟨?_, ?_, ?_⟩ <;> intro e <;> rw [e] at h <;> revert h <;> decide
  · rw [h]
    refine ⟨?_, ?_, ?_⟩ <;> decide

theorem csvRecord_eq_csvLine (putTime : Int → String) (task : Task) :
    csvRecord putTime task = csvLine putTime task ++ "\n" := by
  rfl

theorem csvLine_toList (putTime : Int → String) (task : Task) :
    (csvLine putTime task).toList =
      (toString task.id).toList ++ ',' :: ((escapedDesc task.description).toList
        ++ ',' :: ((toString task.estimatedDurationSeconds).toList
        ++ ',' :: ((formatTime putTime task.startTime).toList
        ++ ',' :: ((formatTime putTime task.finishTime).toList
        ++ ',' :: (toString (actualDuration task)).toList)))) := by
  simp [csvLine, recordFields, String.intercalate, String.intercalate.go]

theorem parse_unquoted_comma (f cur rest : List Char) (hf : ∀ c ∈ f, Plain c) :
    parseCsvRecord FieldState.unquoted cur (f ++ ',' :: rest)
      = String.mk (cur ++ f) :: parseCsvRecord FieldState.start [] rest := by
  induction f generalizing cur with
  | nil => simp [parseCsvRecord]
  | cons x xs ih =>
    obtain ⟨h1, _, h3⟩ := hf x (List.mem_cons_self x xs)
    have hxs : ∀ c ∈ xs, Plain c := fun c hc => hf c (List.mem_cons_of_mem x hc)
    simp [parseCsvRecord, h1, h3, ih (cur ++ [x]) hxs]

theorem parse_start_comma (f rest : List Char) (hf : ∀ c ∈ f, Plain c) :
    parseCsvRecord FieldState.start [] (f ++ ',' :: rest)
      = String.mk f :: parseCsvRecord FieldState.start [] rest := by
  cases f with
  | nil =>
    have hne : ¬ ',' = dquote := by decide
    simp [parseCsvRecord, hne]
  | cons x xs =>
    obtain ⟨h1, h2, h3⟩ := hf x (List.mem_cons_self x xs)
    have hxs : ∀ c ∈ xs, Plain c := fun c hc => hf c (List.mem_cons_of_mem x hc)
    simp [parseCsvRecord, h1, h2, h3, parse_unquoted_comma xs [x] rest hxs]

theorem parse_unquoted_newline (f cur rest : List Char) (hf : ∀ c ∈ f, Plain c) :
    parseCsvRecord FieldState.unquoted cur (f ++ newline :: rest) = [String.mk (cur ++ f)] := by
  induction f generalizing cur with
  | nil =>
    have hne : ¬ newline = ',' := by decide
    simp [parseCsvRecord, hne]
  | cons x xs ih =>
    obtain ⟨h1, _, h3⟩ := hf x (List.mem_cons_self x xs)
    have hxs : ∀ c ∈ xs, Plain c := fun c hc => hf c (List.mem_cons_of_mem x hc)
    simp [parseCsvRecord, h1, h3, ih (cur ++ [x]) hxs]

theorem parse_start_newline (f rest : List Char) (hf : ∀ c ∈ f, Plain c) :
    parseCsvRecord FieldState.start [] (f ++ newline :: rest) = [String.mk f] := by
  cases f with
  | nil =>
    have hne : ¬ newline = ',' := by decide
    have hne2 : ¬ newline = dquote := by decide
    simp [parseCsvRecord, hne, hne2]
  | cons x xs =>
    obtain ⟨h1, h2, h3⟩ := hf x (List.mem_cons_self x xs)
    have hxs : ∀ c ∈ xs, Plain c := fun c hc => hf c (List.mem_cons_of_mem x hc)
    simp [parseCsvRecord, h1, h2, h3, parse_unquoted_newline xs [x] rest hxs]

/-- A quoted field is read back as written: the doubled quotes of `d` give `d`. -/
theorem parse_quoted (d cur rest : List Char) :
    parseCsvRecord FieldState.quoted cur (doubleQuotes d ++ dquote :: ',' :: rest)
      = String.mk (cur ++ d) :: parseCsvRecord FieldState.start [] rest := by
  induction d generalizing cur with
  | nil =>
    have hne : ¬ ',' = dquote := by decide
    simp [parseCsvRecord, doubleQuotes, hne]
  | cons x xs ih =>
    by_cases hx : x = dquote
    · simp [parseCsvRecord, doubleQuotes, hx, ih (cur ++ [dquote])]
    · simp [parseCsvRecord, doubleQuotes, hx, ih (cur ++ [x])]

theorem formatTime_plain (putTime : Int → String) (t : Int)
    (h : ∀ c ∈ (putTime t).toList, Plain c) : ∀ c ∈ (formatTime putTime t).toList, Plain c := by
  rw [formatTime]
  split
  · intro c hc
    have hc2 : c ∈ ['N', '/', 'A'] := hc
    simp only [List.mem_cons, List.mem_singleton, List.not_mem_nil, or_false] at hc2
    rcases hc2 with h1 | h1 | h1 <;> rw [h1] <;> refine ⟨?_, ?_, ?_⟩ <;> decide
  · exact h

/-- The record of a task whose description needs quoting, read back field by field. -/
theorem parse_csvRecord_quoted (putTime : Int → String) (task : Task)
    (hq : ',' ∈ task.description.toList ∨ dquote ∈ task.description.toList)
    (hfmt : ∀ t, ∀ c ∈ (putTime t).toList, Plain c) :
    parseCsvRecord FieldState.start [] (csvRecord putTime task).toList
      = [toString task.id, task.description, toString task.estimatedDurationSeconds,
          formatTime putTime task.startTime, formatTime putTime task.finishTime,
          toString (actualDuration task)] := by
  have hlist : (csvRecord putTime task).toList
      = (toString task.id).toList ++ ',' :: (dquote :: (doubleQuotes task.description.toList
        ++ dquote :: ',' :: ((toString task.estimatedDurationSeconds).toList
        ++ ',' :: ((formatTime putTime task.startTime).toList
        ++ ',' :: ((formatTime putTime task.finishTime).toList
        ++ ',' :: ((toString (actualDuration task)).toList ++ newline :: [])))))) := by
    have h1 : (csvRecord putTime task).toList = (csvLine putTime task).toList ++ [newline] := by
      rw [csvRecord_eq_csvLine]
      simp [String.toList, String.data_append]
      rfl
    have h2 : (escapedDesc task.description).toList
        = [dquote] ++ doubleQuotes task.description.toList ++ [dquote] := by
      rw [escapedDesc_eq, if_pos hq]
      rfl
    rw [h1, csvLine_toList, h2]
    simp
  rw [hlist, parse_start_comma _ _ (toString_int_plain _)]
  have hstart : ∀ (l : List Char),
      parseCsvRecord FieldState.start [] (dquote :: l) = parseCsvRecord FieldState.quoted [] l := by
    intro l
    simp [parseCsvRecord]
  rw [hstart, parse_quoted, parse_start_comma _ _ (toString_int_plain _),
    parse_start_comma _ _ (formatTime_plain _ _ (hfmt _)),
    parse_start_comma _ _ (formatTime_plain _ _ (hfmt _)),
    parse_start_newline _ _ (toString_int_plain _)]
  simp

/-! ## Repeated calls -/

theorem finishTask_active_absent (env : Env) (s : Scheduler) (file : Option String) (id : Int) :
    ∀ t ∈ (s.finishTask env file id).1.activeTasks, t.id ≠ id := by
  cases hf : findTaskById id s.activeTasks with
  | none =>
    have habs := (findTaskById_eq_none id s.activeTasks).mp hf
    rw [finishTask_absent env s file id habs]
    exact habs
  | some i =>
    obtain ⟨pre, u, post, hl, _, hu, hpre⟩ := findTaskById_split id _ i hf
    rw [finishTask_split env s file id pre post u hl hpre hu]
    intro t ht
    simp only [List.mem_append, mem_eraseById] at ht
    rcases ht with ht | ht
    · exact hpre t ht
    · exact ht.2

/-! ## Where tasks come from -/

theorem run_concat (w : World) (calls : List (Env × Op)) (c : Env × Op) :
    run w (calls ++ [c]) = step (run w calls) c := by
  simp [run, List.foldl_append]

theorem addArgs_append (a b : List (Env × Op)) : addArgs (a ++ b) = addArgs a ++ addArgs b := by
  induction a with
  | nil => rfl
  | cons c rest ih =>
    obtain ⟨env, op⟩ := c
    cases op <;> simp [addArgs, ih]

theorem addArgs_length (calls : List (Env × Op)) : (addArgs calls).length = countAdds calls := by
  induction calls with
  | nil => rfl
  | cons c rest ih =>
    obtain ⟨env, op⟩ := c
    cases op <;> simp [addArgs, countAdds, ih]

theorem getElem?_append_some (l m : List (String × Int)) (i : Nat) (x : String × Int)
    (h : l[i]? = some x) : (l ++ m)[i]? = some x := by
  induction l generalizing i with
  | nil => simp at h
  | cons y ys ih =>
    cases i with
    | zero => simpa using h
    | succ j =>
      simp only [List.cons_append, List.getElem?_cons_succ] at h ⊢
      exact ih j h

/-- Every task after a `startTask` call is a task from before it, with the same id, description
and estimate. -/
theorem allTasks_startTask (env : Env) (s : Scheduler) (id : Int) :
    ∀ t ∈ allTasks (s.startTask env id), ∃ u ∈ allTasks s,
      t.id = u.id ∧ t.description = u.description
        ∧ t.estimatedDurationSeconds = u.estimatedDurationSeconds := by
  cases hf : findTaskById id s.stagedTasks with
  | none =>
    rw [startTask_absent env s id ((findTaskById_eq_none _ _).mp hf)]
    exact fun t ht => ⟨t, ht, rfl, rfl, rfl⟩
  | some i =>
    obtain ⟨pre, u, post, hl, _, hu, hpre⟩ := findTaskById_split id _ i hf
    rw [startTask_split env s id pre post u hl hpre hu]
    intro t ht
    simp only [allTasks, hl, List.mem_append, List.mem_cons, List.mem_singleton,
      mem_eraseById, List.not_mem_nil, or_false] at ht ⊢
    rcases ht with ((ht | ht) | (ht | ht)) | ht
    · exact ⟨t, Or.inl (Or.inl (Or.inl ht)), rfl, rfl, rfl⟩
    · exact ⟨t, Or.inl (Or.inl (Or.inr (Or.inr ht.1))), rfl, rfl, rfl⟩
    · exact ⟨t, Or.inl (Or.inr ht), rfl, rfl, rfl⟩
    · exact ⟨u, Or.inl (Or.inl (Or.inr (Or.inl rfl))), by rw [ht]; exact ⟨rfl, rfl, rfl⟩⟩
    · exact ⟨t, Or.inr ht, rfl, rfl, rfl⟩

/-- Every task after a `finishTask` call is a task from before it, with the same id,
description and estimate. -/
theorem allTasks_finishTask (env : Env) (s : Scheduler) (file : Option String) (id : Int) :
    ∀ t ∈ allTasks (s.finishTask env file id).1, ∃ u ∈ allTasks s,
      t.id = u.id ∧ t.description = u.description
        ∧ t.estimatedDurationSeconds = u.estimatedDurationSeconds := by
  cases hf : findTaskById id s.activeTasks with
  | none =>
    rw [finishTask_absent env s file id ((findTaskById_eq_none _ _).mp hf)]
    exact fun t ht => ⟨t, ht, rfl, rfl, rfl⟩
  | some i =>
    obtain ⟨pre, u, post, hl, _, hu, hpre⟩ := findTaskById_split id _ i hf
    rw [finishTask_split env s file id pre post u hl hpre hu]
    intro t ht
    simp only [allTasks, hl, List.mem_append, List.mem_cons, List.mem_singleton,
      mem_eraseById, List.not_mem_nil, or_false] at ht ⊢
    rcases ht with (ht | (ht | ht)) | (ht | ht)
    · exact ⟨t, Or.inl (Or.inl ht), rfl, rfl, rfl⟩
    · exact ⟨t, Or.inl (Or.inr (Or.inl ht)), rfl, rfl, rfl⟩
    · exact ⟨t, Or.inl (Or.inr (Or.inr (Or.inr ht.1))), rfl, rfl, rfl⟩
    · exact ⟨t, Or.inr ht, rfl, rfl, rfl⟩
    · exact ⟨u, Or.inl (Or.inr (Or.inr (Or.inl rfl))), by rw [ht]; exact ⟨rfl, rfl, rfl⟩⟩

/-- Every task of a registry reached from a fresh one carries the arguments of the `addTask`
call whose number is its id. -/
theorem created_reached (file : Option String) (calls : List (Env × Op)) :
    ∀ t ∈ allTasks (reached file calls), 1 ≤ t.id ∧
      (addArgs calls)[(t.id - 1).toNat]? = some (t.description, t.estimatedDurationSeconds) := by
  induction calls using List.reverseRecOn with
  | nil => simp [reached, run, fresh, Scheduler.ctor, allTasks]
  | append_singleton calls c ih =>
    have hrun : reached file (calls ++ [c]) = (step (run (fresh file) calls) c).sched := by
      rw [reached, run_concat]
    have hargs := addArgs_append calls [c]
    obtain ⟨env, op⟩ := c
    cases op with
    | add description estimate =>
      intro t ht
      have hnext : (reached file calls).nextId = 1 + countAdds calls := by
        have h := nextId_run (fresh file) calls
        simpa [reached, fresh, Scheduler.ctor] using h
      rw [hrun] at ht
      simp only [step, allTasks, Scheduler.addTask, List.mem_append, List.mem_singleton] at ht
      rw [hargs]
      have hold : t ∈ allTasks (reached file calls) → 1 ≤ t.id ∧
          (addArgs calls ++ addArgs [(env, Op.add description estimate)])[(t.id - 1).toNat]?
            = some (t.description, t.estimatedDurationSeconds) := by
        intro h
        exact ⟨(ih t h).1, getElem?_append_some _ _ _ _ (ih t h).2⟩
      rcases ht with ((ht | ht) | ht) | ht
      · exact hold (by simp only [allTasks, List.mem_append]; exact Or.inl (Or.inl ht))
      · subst ht
        have hid : (Task.ctor (run (fresh file) calls).sched.nextId description estimate).id
            = 1 + countAdds calls := hnext
        have hidx : ((1 : Int) + countAdds calls - 1).toNat = (addArgs calls).length := by
          rw [addArgs_length]
          omega
        rw [hid, hidx]
        constructor
        · omega
        · simp [addArgs, Task.ctor]
      · exact hold (by simp only [allTasks, List.mem_append]; exact Or.inl (Or.inr ht))
      · exact hold (by simp only [allTasks, List.mem_append]; exact Or.inr ht)
    | start id =>
      intro t ht
      rw [hrun] at ht
      obtain ⟨u, hu, h1, h2, h3⟩ := allTasks_startTask env _ id t ht
      have hargs2 : addArgs (calls ++ [(env, Op.start id)]) = addArgs calls := by
        rw [hargs]
        simp [addArgs]
      rw [hargs2, h1, h2, h3]
      exact ih u hu
    | finish id =>
      intro t ht
      rw [hrun] at ht
      obtain ⟨u, hu, h1, h2, h3⟩ := allTasks_finishTask env _ _ id t ht
      have hargs2 : addArgs (calls ++ [(env, Op.finish id)]) = addArgs calls := by
        rw [hargs]
        simp [addArgs]
      rw [hargs2, h1, h2, h3]
      exact ih u hu

/-! ## Console messages -/

theorem started_ne_notFound (x : String) :
    "Started task [#" ++ x ++ "].\n" ≠ "Task [#" ++ x ++ "] not found in staged tasks.\n" := by
  intro h
  have h2 := congrArg (fun s : String => s.toList.head?) h
  simp [String.toList, String.data_append] at h2

theorem finished_ne_notFound (x pre : String)
    (hpre : pre = "" ∨ pre = "Task logged to finished_tasks.csv\n") :
    pre ++ ("Finished task [#" ++ x ++ "].\n")
      ≠ "Task [#" ++ x ++ "] not found in active tasks.\n" := by
  intro h
  rcases hpre with rfl | rfl
  · have h2 := congrArg (fun s : String => s.toList.head?) h
    simp [String.toList, String.data_append] at h2
  · have h2 := congrArg (fun s : String => s.toList[5]?) h
    simp [String.toList, String.data_append] at h2

/-! ## The listing order -/

theorem startTask_staged (env : Env) (s : Scheduler) (id : Int) :
    (s.startTask env id).stagedTasks = eraseById s.stagedTasks id := by
  cases hf : findTaskById id s.stagedTasks with
  | none =>
    have habs := (findTaskById_eq_none id s.stagedTasks).mp hf
    rw [startTask_absent env s id habs, eraseById_of_absent _ _ habs]
  | some i =>
    obtain ⟨pre, u, post, hl, _, hu, hpre⟩ := findTaskById_split id _ i hf
    rw [startTask_split env s id pre post u hl hpre hu, hl, eraseById_split pre post u id hpre hu]

theorem finishTask_active (env : Env) (s : Scheduler) (file : Option String) (id : Int) :
    (s.finishTask env file id).1.activeTasks = eraseById s.activeTasks id := by
  cases hf : findTaskById id s.activeTasks with
  | none =>
    have habs := (findTaskById_eq_none id s.activeTasks).mp hf
    rw [finishTask_absent env s file id habs, eraseById_of_absent _ _ habs]
  | some i =>
    obtain ⟨pre, u, post, hl, _, hu, hpre⟩ := findTaskById_split id _ i hf
    rw [finishTask_split env s file id pre post u hl hpre hu, hl,
      eraseById_split pre post u id hpre hu]

theorem startTask_active_ids (env : Env) (s : Scheduler) (id : Int) :
    (s.startTask env id).activeTasks.map Task.id
      = s.activeTasks.map Task.id
        ++ (if (findTaskById id s.stagedTasks).isSome then [id] else []) := by
  cases hf : findTaskById id s.stagedTasks with
  | none =>
    rw [startTask_absent env s id ((findTaskById_eq_none _ _).mp hf)]
    simp
  | some i =>
    obtain ⟨pre, u, post, hl, _, hu, hpre⟩ := findTaskById_split id _ i hf
    rw [startTask_split env s id pre post u hl hpre hu]
    simp [Task.markActive, hu]

theorem finishTask_finished_ids (env : Env) (s : Scheduler) (file : Option String) (id : Int) :
    (s.finishTask env file id).1.finishedLog.map Task.id
      = s.finishedLog.map Task.id
        ++ (if (findTaskById id s.activeTasks).isSome then [id] else []) := by
  cases hf : findTaskById id s.activeTasks with
  | none =>
    rw [finishTask_absent env s file id ((findTaskById_eq_none _ _).mp hf)]
    simp
  | some i =>
    obtain ⟨pre, u, post, hl, _, hu, hpre⟩ := findTaskById_split id _ i hf
    rw [finishTask_split env s file id pre post u hl hpre hu]
    simp [Task.markFinished, hu]

theorem startTask_finished (env : Env) (s : Scheduler) (id : Int) :
    (s.startTask env id).finishedLog = s.finishedLog := by
  simp only [Scheduler.startTask]
  split <;> rfl

theorem finishTask_staged (env : Env) (s : Scheduler) (file : Option String) (id : Int) :
    (s.finishTask env file id).1.stagedTasks = s.stagedTasks := by
  simp only [Scheduler.finishTask]
  split <;> rfl

theorem ids_eraseById (v : List Task) (id : Int) :
    (eraseById v id).map Task.id = (v.map Task.id).filter (fun k => !decide (k = id)) := by
  induction v with
  | nil => rfl
  | cons x xs ih =>
    simp only [eraseById] at ih
    by_cases hx : x.id = id
    · simp [eraseById, hx, ih]
    · simp [eraseById, hx, ih]

theorem startOrder_concat (w : World) (calls : List (Env × Op)) (c : Env × Op) :
    startOrder w (calls ++ [c]) = startOrder w calls ++ startOrder (run w calls) [c] := by
  induction calls generalizing w with
  | nil => simp [startOrder, run]
  | cons d rest ih =>
    have hrun : run w (d :: rest) = run (step w d) rest := rfl
    obtain ⟨env, op⟩ := d
    cases op with
    | add description estimate => simp [startOrder, ih, hrun]
    | start id =>
      by_cases hf : (findTaskById id w.sched.stagedTasks).isSome = true
      · simp [startOrder, ih, hrun, hf]
      · simp [startOrder, ih, hrun, hf]
    | finish id => simp [startOrder, ih, hrun]

theorem finishOrder_concat (w : World) (calls : List (Env × Op)) (c : Env × Op) :
    finishOrder w (calls ++ [c]) = finishOrder w calls ++ finishOrder (run w calls) [c] := by
  induction calls generalizing w with
  | nil => simp [finishOrder, run]
  | cons d rest ih =>
    have hrun : run w (d :: rest) = run (step w d) rest := rfl
    obtain ⟨env, op⟩ := d
    cases op with
    | add description estimate => simp [finishOrder, ih, hrun]
    | start id => simp [finishOrder, ih, hrun]
    | finish id =>
      by_cases hf : (findTaskById id w.sched.activeTasks).isSome = true
      · simp [finishOrder, ih, hrun, hf]
      · simp [finishOrder, ih, hrun, hf]

/-- The finished log lists the ids of the successful `finishTask` calls in call order. -/
theorem finished_order (file : Option String) (calls : List (Env × Op)) :
    (reached file calls).finishedLog.map Task.id = finishOrder (fresh file) calls := by
  induction calls using List.reverseRecOn with
  | nil => rfl
  | append_singleton calls c ih =>
    have hrun : reached file (calls ++ [c]) = (step (run (fresh file) calls) c).sched := by
      rw [reached, run_concat]
    rw [finishOrder_concat, hrun, ← ih]
    obtain ⟨env, op⟩ := c
    cases op with
    | add description estimate => simp [step, Scheduler.addTask, finishOrder, reached]
    | start id => simp [step, startTask_finished, finishOrder, reached]
    | finish id =>
      simp only [step, finishTask_finished_ids, finishOrder, reached]

/-- The active list holds the ids of the successful `startTask` calls in call order, without
those finished since. -/
theorem active_order (file : Option String) (calls : List (Env × Op)) :
    (reached file calls).activeTasks.map Task.id
      = (startOrder (fresh file) calls).filter
          (fun k => !decide (k ∈ finishOrder (fresh file) calls)) := by
  induction calls using List.reverseRecOn with
  | nil => rfl
  | append_singleton calls c ih =>
    have hrun : reached file (calls ++ [c]) = (step (run (fresh file) calls) c).sched := by
      rw [reached, run_concat]
    have hfin : (run (fresh file) calls).sched.finishedLog.map Task.id
        = finishOrder (fresh file) calls := finished_order file calls
    have hreg : Registered (run (fresh file) calls).sched := registered_reached file calls
    have ih2 : (run (fresh file) calls).sched.activeTasks.map Task.id
        = (startOrder (fresh file) calls).filter
          (fun k => !decide (k ∈ finishOrder (fresh file) calls)) := ih
    rw [startOrder_concat, finishOrder_concat, hrun]
    obtain ⟨env, op⟩ := c
    cases op with
    | add description estimate =>
      simp only [step, Scheduler.addTask, startOrder, finishOrder, List.append_nil]
      exact ih2
    | start id =>
      simp only [step, startTask_active_ids, finishOrder, List.append_nil, startOrder]
      rw [ih2]
      cases hf : findTaskById id (run (fresh file) calls).sched.stagedTasks with
      | none => simp
      | some i =>
        obtain ⟨pre, u, post, hl, _, hu, _⟩ := findTaskById_split id _ i hf
        have hmem : u ∈ (run (fresh file) calls).sched.stagedTasks := by
          rw [hl]
          simp
        have hnot : id ∉ finishOrder (fresh file) calls := by
          rw [← hfin]
          intro hin
          have h1 := count_ids_pos _ u hmem
          rw [hu] at h1
          have h2 : 1 ≤ ((run (fresh file) calls).sched.finishedLog.map Task.id).count id :=
            List.count_pos_iff.mpr hin
          have hk := hreg.1 id
          simp only [allIds, List.count_append] at hk
          split at hk <;> omega
        simp [List.filter_append, hnot]
    | finish id =>
      cases hf : findTaskById id (run (fresh file) calls).sched.activeTasks with
      | none =>
        have habs := (findTaskById_eq_none id _).mp hf
        simp only [step, finishTask_absent env _ _ id habs, startOrder, finishOrder, hf,
          List.append_nil, Option.isSome_none, Bool.false_eq_true, if_false]
        exact ih2
      | some i =>
        have hact : (step (run (fresh file) calls) (env, Op.finish id)).sched.activeTasks
            = eraseById (run (fresh file) calls).sched.activeTasks id :=
          finishTask_active env _ _ id
        rw [hact, ids_eraseById, ih2]
        simp only [startOrder, List.append_nil, finishOrder, List.filter_filter, hf,
          Option.isSome_some, if_true]
        apply List.filter_congr
        intro k _
        by_cases hk : k = id
        · simp [hk]
        · simp [hk]

theorem stagedSorted_step (w : World) (c : Env × Op) (h : StagedSorted w.sched) :
    StagedSorted (step w c).sched := by
  obtain ⟨hp, hlt⟩ := h
  obtain ⟨env, op⟩ := c
  cases op with
  | add description estimate =>
    constructor
    · simp only [step, Scheduler.addTask, List.map_append, List.map_cons, List.map_nil,
        List.pairwise_append, List.pairwise_cons, List.not_mem_nil, false_imp_iff,
        implies_true, List.Pairwise.nil, and_true, true_and, List.mem_singleton]
      refine ⟨hp, ?_⟩
      intro a ha b hb
      obtain ⟨t, ht, rfl⟩ := List.mem_map.mp ha
      rw [hb]
      exact hlt t ht
    · intro t ht
      simp only [step, Scheduler.addTask, List.mem_append, List.mem_singleton] at ht
      rcases ht with ht | rfl
      · have := hlt t ht
        show t.id < w.sched.nextId + 1
        omega
      · show w.sched.nextId < w.sched.nextId + 1
        omega
  | start id =>
    have hst : (step w (env, Op.start id)).sched.stagedTasks = eraseById w.sched.stagedTasks id :=
      startTask_staged env w.sched id
    have hn : (step w (env, Op.start id)).sched.nextId = w.sched.nextId :=
      startTask_nextId env w.sched id
    constructor
    · rw [hst, ids_eraseById]
      exact hp.sublist (List.filter_sublist _)
    · intro t ht
      rw [hst] at ht
      rw [hn]
      exact hlt t ((mem_eraseById _ _ _).mp ht).1
  | finish id =>
    have hst : (step w (env, Op.finish id)).sched.stagedTasks = w.sched.stagedTasks :=
      finishTask_staged env w.sched w.file id
    have hn : (step w (env, Op.finish id)).sched.nextId = w.sched.nextId :=
      finishTask_nextId env w.sched w.file id
    constructor
    · rw [hst]
      exact hp
    · intro t ht
      rw [hst] at ht
      rw [hn]
      exact hlt t ht

theorem stagedSorted_run (w : World) (calls : List (Env × Op)) (h : StagedSorted w.sched) :
    StagedSorted (run w calls).sched := by
  induction calls generalizing w with
  | nil => exact h
  | cons c rest ih => exact ih (step w c) (stagedSorted_step w c h)

theorem stagedSorted_reached (file : Option String) (calls : List (Env × Op)) :
    StagedSorted (reached file calls) :=
  stagedSorted_run (fresh file) calls (by simp [StagedSorted, fresh, Scheduler.ctor])

/-! ## What the writer appends -/

/-- The writer, when the file opens for appending, leaves the old contents, adds the header line
unless the file was present and opened for reading, and then adds the record of the task. -/
theorem logTaskToCSV_appends (env : Env) (file : Option String) (task : Task)
    (hopen : env.openOk = true) :
    logTaskToCSV env file task
      = some (file.getD "" ++ (if file.isSome && env.readOk then "" else csvHeader)
          ++ csvRecord env.putTime task) := by
  cases file with
  | none => simp [logTaskToCSV, hopen]
  | some contents =>
    cases hread : env.readOk <;> simp [logTaskToCSV, hopen, hread]

/-! ## The claims -/

/-- C1, single membership: in every registry reached from a fresh one by any sequence of
`addTask`, `startTask` and `finishTask` calls, each id from 1 to `nextId - 1` occurs exactly once
over the three collections taken together (so in exactly one of them, once), no other id occurs,
and the three sizes sum to `nextId - 1`. -/
theorem single_membership (file : Option String) (calls : List (Env × Op)) :
    (∀ k : Int, 1 ≤ k → k < (reached file calls).nextId →
      ((reached file calls).stagedTasks.map Task.id).count k
        + ((reached file calls).activeTasks.map Task.id).count k
        + ((reached file calls).finishedLog.map Task.id).count k = 1) ∧
    (∀ k ∈ allIds (reached file calls), 1 ≤ k ∧ k < (reached file calls).nextId) ∧
    (((reached file calls).stagedTasks.length + (reached file calls).activeTasks.length
      + (reached file calls).finishedLog.length : Nat) : Int) = (reached file calls).nextId - 1 := by
  obtain ⟨hc, hn⟩ := registered_reached file calls
  refine ⟨?_, ?_, ?_⟩
  · intro k h1 h2
    have hk := hc k
    simp only [allIds, List.count_append] at hk
    rw [if_pos ⟨h1, h2⟩] at hk
    exact hk
  · intro k hk
    have hpos : 0 < (allIds (reached file calls)).count k := List.count_pos_iff.mpr hk
    have hck := hc k
    by_contra hneg
    rw [if_neg hneg] at hck
    omega
  · omega

/-- C2, identity uniqueness: after any sequence of calls on a fresh registry `nextId` is one more
than the number of `addTask` calls made; an `addTask` call that follows appends to `stagedTasks`
a task whose id is that number plus one, so the k-th `addTask` call assigns id k; `addTask` adds
exactly one to `nextId`; `startTask` and `finishTask` leave `nextId` alone, found or not. -/
theorem identity_uniqueness (file : Option String) (calls : List (Env × Op)) :
    (reached file calls).nextId = 1 + countAdds calls ∧
    (∀ (env : Env) (description : String) (estimate : Int),
      (reached file (calls ++ [(env, Op.add description estimate)])).stagedTasks
        = (reached file calls).stagedTasks
          ++ [Task.ctor ((countAdds calls : Int) + 1) description estimate]) ∧
    (∀ (w : World) (env : Env) (description : String) (estimate : Int),
      (step w (env, Op.add description estimate)).sched.nextId = w.sched.nextId + 1) ∧
    (∀ (w : World) (env : Env) (id : Int),
      (step w (env, Op.start id)).sched.nextId = w.sched.nextId) ∧
    (∀ (w : World) (env : Env) (id : Int),
      (step w (env, Op.finish id)).sched.nextId = w.sched.nextId) := by
  have hnext : (reached file calls).nextId = 1 + countAdds calls := by
    have h := nextId_run (fresh file) calls
    simpa [reached, fresh, Scheduler.ctor] using h
  refine ⟨hnext, ?_, ?_, ?_, ?_⟩
  · intro env description estimate
    have hrun : reached file (calls ++ [(env, Op.add description estimate)])
        = (reached file calls).addTask description estimate := by
      simp [reached, run, List.foldl_append, step]
    rw [hrun]
    simp only [Scheduler.addTask, hnext]
    rw [Int.add_comm]
  · intro w env description estimate
    rfl
  · intro w env id
    exact startTask_nextId env w.sched id
  · intro w env id
    exact finishTask_nextId env w.sched w.file id

/-- C3, evaluation at the failing input: two tasks are added and started, then task 1 is
finished. Task 1 is appended to `finishedLog`, but the record written to the log file is that of
task 2, which is still active (finish time `N/A`, duration 0), not the record of task 1. -/
theorem finishTask_logs_wrong_task :
    (run (fresh none) (sampleCalls ++ [(sampleEnv 9, Op.finish 1)])).sched.finishedLog
      = [Task.mk 1 "a" Status.Finished 7 9 10] ∧
    (run (fresh none) (sampleCalls ++ [(sampleEnv 9, Op.finish 1)])).sched.activeTasks
      = [Task.mk 2 "b" Status.Active 8 0 20] ∧
    (run (fresh none) (sampleCalls ++ [(sampleEnv 9, Op.finish 1)])).file
      = some (csvHeader ++ "2,b,20,T,N/A,0\n") ∧
    logTaskToCSV (sampleEnv 9) none (Task.mk 1 "a" Status.Finished 7 9 10)
      = some (csvHeader ++ "1,a,10,T,T,2\n") := by
  decide

/-- C4, status and timestamp invariant: when no call reads the clock as zero, in the registry
reached from a fresh one every staged task has status Staged with both timestamps zero, every
active task has status Active with a start time that is not zero and finish time zero, and every
finished task has status Finished with both timestamps not zero. -/
theorem status_timestamp_invariant (file : Option String) (calls : List (Env × Op))
    (hclock : ∀ c ∈ calls, c.1.now ≠ 0) :
    (∀ t ∈ (reached file calls).stagedTasks,
      t.status = Status.Staged ∧ t.startTime = 0 ∧ t.finishTime = 0) ∧
    (∀ t ∈ (reached file calls).activeTasks,
      t.status = Status.Active ∧ t.startTime ≠ 0 ∧ t.finishTime = 0) ∧
    (∀ t ∈ (reached file calls).finishedLog,
      t.status = Status.Finished ∧ t.startTime ≠ 0 ∧ t.finishTime ≠ 0) := by
  have h0 : Stamped (fresh file).sched := by
    refine ⟨?_, ?_, ?_⟩ <;> simp [fresh, Scheduler.ctor]
  exact stamped_run (fresh file) calls hclock h0

theorem status_timestamp_invariant_witness :
    (∀ c ∈ sampleCalls ++ [(sampleEnv 9, Op.finish 1)], c.1.now ≠ 0) ∧
    (∀ t ∈ (reached none (sampleCalls ++ [(sampleEnv 9, Op.finish 1)])).stagedTasks,
      t.status = Status.Staged ∧ t.startTime = 0 ∧ t.finishTime = 0) ∧
    (∀ t ∈ (reached none (sampleCalls ++ [(sampleEnv 9, Op.finish 1)])).activeTasks,
      t.status = Status.Active ∧ t.startTime ≠ 0 ∧ t.finishTime = 0) ∧
    (∀ t ∈ (reached none (sampleCalls ++ [(sampleEnv 9, Op.finish 1)])).finishedLog,
      t.status = Status.Finished ∧ t.startTime ≠ 0 ∧ t.finishTime ≠ 0) :=
  ⟨by decide, status_timestamp_invariant none (sampleCalls ++ [(sampleEnv 9, Op.finish 1)])
    (by decide)⟩

/-- C5, success of `startTask`: when the staged ids are distinct and `T` is a staged task, with
`pre` before it and `post` after it, `startTask(T.id)` leaves `stagedTasks` as `pre ++ post`,
appends to `activeTasks` exactly `T` with status Active and start time the clock reading (id,
description, estimate and finish time as they were), and keeps `finishedLog` and `nextId`. -/
theorem startTask_success (env : Env) (s : Scheduler) (pre post : List Task) (T : Task)
    (hs : s.stagedTasks = pre ++ T :: post) (hdistinct : (s.stagedTasks.map Task.id).Nodup) :
    s.startTask env T.id =
      Scheduler.mk (pre ++ post)
        (s.activeTasks ++
          [Task.mk T.id T.description Status.Active env.now T.finishTime T.estimatedDurationSeconds])
        s.finishedLog s.nextId := by
  rw [hs] at hdistinct
  obtain ⟨hpre, hpost⟩ := ids_nodup_split pre post T hdistinct
  rw [startTask_split env s T.id pre post T hs hpre rfl, eraseById_of_absent post T.id hpost]
  rfl

theorem startTask_success_witness :
    (Scheduler.mk [Task.ctor 1 "a" 10, Task.ctor 2 "b" 20, Task.ctor 3 "c" 30] [] [] 4).stagedTasks
      = [Task.ctor 1 "a" 10] ++ Task.ctor 2 "b" 20 :: [Task.ctor 3 "c" 30] ∧
    (Scheduler.mk [Task.ctor 1 "a" 10, Task.ctor 2 "b" 20, Task.ctor 3 "c" 30] [] [] 4).startTask
        (sampleEnv 7) (Task.ctor 2 "b" 20).id =
      Scheduler.mk ([Task.ctor 1 "a" 10] ++ [Task.ctor 3 "c" 30])
        ([] ++ [Task.mk 2 "b" Status.Active 7 0 20]) [] 4 :=
  ⟨rfl, startTask_success (sampleEnv 7)
    (Scheduler.mk [Task.ctor 1 "a" 10, Task.ctor 2 "b" 20, Task.ctor 3 "c" 30] [] [] 4)
    [Task.ctor 1 "a" 10] [Task.ctor 3 "c" 30] (Task.ctor 2 "b" 20) rfl (by decide)⟩

/-- C6, success of `finishTask` on the registry: when the active ids are distinct and `T` is an
active task, with `pre` before it and `post` after it, `finishTask(T.id)` leaves `activeTasks` as
`pre ++ post`, appends to `finishedLog` exactly `T` with status Finished and finish time the
clock reading (id, description, estimate and start time as they were), and keeps `stagedTasks`
and `nextId`; this holds whatever the state of the log file. -/
theorem finishTask_success (env : Env) (s : Scheduler) (file : Option String)
    (pre post : List Task) (T : Task)
    (hs : s.activeTasks = pre ++ T :: post) (hdistinct : (s.activeTasks.map Task.id).Nodup) :
    (s.finishTask env file T.id).1 =
      Scheduler.mk s.stagedTasks (pre ++ post)
        (s.finishedLog ++
          [Task.mk T.id T.description Status.Finished T.startTime env.now
            T.estimatedDurationSeconds])
        s.nextId := by
  rw [hs] at hdistinct
  obtain ⟨hpre, hpost⟩ := ids_nodup_split pre post T hdistinct
  rw [finishTask_split env s file T.id pre post T hs hpre rfl, eraseById_of_absent post T.id hpost]
  rfl

theorem finishTask_success_witness :
    (reached none sampleCalls).activeTasks
      = [] ++ Task.mk 1 "a" Status.Active 7 0 10 :: [Task.mk 2 "b" Status.Active 8 0 20] ∧
    ((reached none sampleCalls).finishTask (sampleEnv 9) none
        (Task.mk 1 "a" Status.Active 7 0 10).id).1 =
      Scheduler.mk (reached none sampleCalls).stagedTasks
        ([] ++ [Task.mk 2 "b" Status.Active 8 0 20])
        ((reached none sampleCalls).finishedLog ++ [Task.mk 1 "a" Status.Finished 7 9 10])
        (reached none sampleCalls).nextId :=
  ⟨by decide, finishTask_success (sampleEnv 9) (reached none sampleCalls) none []
    [Task.mk 2 "b" Status.Active 8 0 20] (Task.mk 1 "a" Status.Active 7 0 10) (by decide)
    (by decide)⟩

/-- C7, `startTask` on an id no staged task has: the three collections, `nextId` and the log
file are all unchanged. -/
theorem startTask_notFound_noop (env : Env) (w : World) (id : Int)
    (habsent : ∀ t ∈ w.sched.stagedTasks, t.id ≠ id) :
    step w (env, Op.start id) = w := by
  simp only [step, startTask_absent env w.sched id habsent]

theorem startTask_notFound_noop_witness :
    (∀ t ∈ (fresh none).sched.stagedTasks, t.id ≠ 999) ∧
    step (fresh none) (sampleEnv 7, Op.start 999) = fresh none :=
  ⟨by decide, startTask_notFound_noop (sampleEnv 7) (fresh none) 999 (by decide)⟩

/-- C8, monotonic transition: in every registry reached from a fresh one, `finishTask` on the id
of a task that is still staged changes nothing (collections, `nextId` and log file), and that
task has status Staged with both timestamps zero. -/
theorem finishTask_staged_noop (file : Option String) (calls : List (Env × Op)) (env : Env)
    (t : Task) (ht : t ∈ (run (fresh file) calls).sched.stagedTasks) :
    step (run (fresh file) calls) (env, Op.finish t.id) = run (fresh file) calls ∧
    t.status = Status.Staged ∧ t.startTime = 0 ∧ t.finishTime = 0 := by
  have hreg : Registered (run (fresh file) calls).sched := registered_reached file calls
  have habsent := registered_staged_not_active _ hreg t ht
  constructor
  · simp only [step, finishTask_absent env _ _ t.id habsent]
  · exact staged_run (fresh file) calls staged_ctor t ht

theorem finishTask_staged_noop_witness :
    Task.ctor 2 "b" 20
      ∈ (run (fresh none) [(sampleEnv 5, Op.add "a" 10), (sampleEnv 6, Op.add "b" 20),
          (sampleEnv 7, Op.start 1)]).sched.stagedTasks ∧
    (step (run (fresh none) [(sampleEnv 5, Op.add "a" 10), (sampleEnv 6, Op.add "b" 20),
          (sampleEnv 7, Op.start 1)]) (sampleEnv 9, Op.finish (Task.ctor 2 "b" 20).id)
      = run (fresh none) [(sampleEnv 5, Op.add "a" 10), (sampleEnv 6, Op.add "b" 20),
          (sampleEnv 7, Op.start 1)] ∧
    (Task.ctor 2 "b" 20).status = Status.Staged ∧ (Task.ctor 2 "b" 20).startTime = 0 ∧
      (Task.ctor 2 "b" 20).finishTime = 0) :=
  ⟨by decide, finishTask_staged_noop none [(sampleEnv 5, Op.add "a" 10),
    (sampleEnv 6, Op.add "b" 20), (sampleEnv 7, Op.start 1)] (sampleEnv 9) (Task.ctor 2 "b" 20)
    (by decide)⟩

/-- C9, postcondition of `addTask`: for every registry, description and estimate, one task is
appended at the end of `stagedTasks`, with id the old `nextId`, the given description and
estimate, status Staged and both timestamps zero; `activeTasks` and `finishedLog` are unchanged
and `nextId` grows by one. -/
theorem addTask_postcondition (s : Scheduler) (description : String) (estimate : Int) :
    s.addTask description estimate =
      Scheduler.mk (s.stagedTasks ++ [Task.mk s.nextId description Status.Staged 0 0 estimate])
        s.activeTasks s.finishedLog (s.nextId + 1) := by
  rfl

/-- C10 as stated fails: with the log file present but empty and the append succeeding, the
writer leaves the record alone in the file, without the header line. -/
theorem header_on_empty_file_fails :
    logTaskToCSV (sampleEnv 9) (some "") (Task.mk 1 "a" Status.Finished 7 9 10)
      = some "1,a,10,T,T,2\n" ∧
    logTaskToCSV (sampleEnv 9) (some "") (Task.mk 1 "a" Status.Finished 7 9 10)
      ≠ some (csvHeader ++ csvRecord (sampleEnv 9).putTime (Task.mk 1 "a" Status.Finished 7 9 10)) := by
  decide

/-- C10 amended: when the log file opens for appending, the writer puts the header line and
then the data record into a file that was absent; to a file that was present and opens for
reading, empty or not, it appends only the data record; to a file that was present but does not
open for reading it appends the header line and then the data record. -/
theorem header_on_first_write (env : Env) (task : Task) (hopen : env.openOk = true) :
    logTaskToCSV env none task = some (csvHeader ++ csvRecord env.putTime task) ∧
    (∀ contents : String, env.readOk = true →
      logTaskToCSV env (some contents) task = some (contents ++ csvRecord env.putTime task)) ∧
    (∀ contents : String, env.readOk = false →
      logTaskToCSV env (some contents) task
        = some (contents ++ csvHeader ++ csvRecord env.putTime task)) := by
  refine ⟨?_, ?_, ?_⟩
  · simp [logTaskToCSV, hopen]
  · intro contents hread
    simp [logTaskToCSV, hopen, hread]
  · intro contents hread
    simp [logTaskToCSV, hopen, hread]

theorem header_on_first_write_witness :
    logTaskToCSV (sampleEnv 9) none (Task.mk 1 "a" Status.Finished 7 9 10)
      = some (csvHeader
          ++ csvRecord (sampleEnv 9).putTime (Task.mk 1 "a" Status.Finished 7 9 10)) ∧
    (∀ contents : String, (sampleEnv 9).readOk = true →
      logTaskToCSV (sampleEnv 9) (some contents) (Task.mk 1 "a" Status.Finished 7 9 10)
        = some (contents
            ++ csvRecord (sampleEnv 9).putTime (Task.mk 1 "a" Status.Finished 7 9 10))) ∧
    (∀ contents : String, (sampleEnv 9).readOk = false →
      logTaskToCSV (sampleEnv 9) (some contents) (Task.mk 1 "a" Status.Finished 7 9 10)
        = some (contents ++ csvHeader
            ++ csvRecord (sampleEnv 9).putTime (Task.mk 1 "a" Status.Finished 7 9 10))) :=
  header_on_first_write (sampleEnv 9) (Task.mk 1 "a" Status.Finished 7 9 10) rfl

/-- C12, escaping rule: for every description the quote-doubling loop ends and yields the
description with each double quote doubled once and every other character unchanged and in
order; the description field written is the description itself when it holds neither a comma
nor a double quote, and otherwise that doubled text between two double quotes. -/
theorem escaping_rule (d : String) :
    escapeLoop d.toList 0 = doubleQuotes d.toList ∧
    escapedDesc d =
      if ',' ∈ d.toList ∨ dquote ∈ d.toList then
        String.mk ([dquote] ++ doubleQuotes d.toList ++ [dquote])
      else d :=
  ⟨escapeLoop_eq_doubleQuotes d.toList, escapedDesc_eq d⟩

/-- C13, escaping round trip: for every task whose description holds a comma and a double
quote, a log file in any state that opens for appending, and a time formatter whose output holds
no comma, double quote or line feed, the log writer leaves the old contents, adds the header
line unless the file was present and opened for reading, and then adds a record which, read by
the standard comma-separated rules, gives exactly six fields, the second of which is the
description unchanged. -/
theorem escaping_round_trip (env : Env) (file : Option String) (task : Task)
    (hopen : env.openOk = true)
    (hboth : ',' ∈ task.description.toList ∧ dquote ∈ task.description.toList)
    (hfmt : ∀ t : Int, ∀ c ∈ (env.putTime t).toList, Plain c) :
    ∃ record : String,
      logTaskToCSV env file task
        = some (file.getD "" ++ (if file.isSome && env.readOk then "" else csvHeader)
            ++ record) ∧
      (parseCsvRecord FieldState.start [] record.toList)[1]? = some task.description ∧
      (parseCsvRecord FieldState.start [] record.toList).length = 6 ∧
      parseCsvRecord FieldState.start [] record.toList
        = [toString task.id, task.description, toString task.estimatedDurationSeconds,
            formatTime env.putTime task.startTime, formatTime env.putTime task.finishTime,
            toString (actualDuration task)] := by
  refine ⟨csvRecord env.putTime task, logTaskToCSV_appends env file task hopen, ?_⟩
  have h := parse_csvRecord_quoted env.putTime task (Or.inl hboth.1) hfmt
  rw [h]
  exact ⟨rfl, rfl, rfl⟩

theorem escaping_round_trip_witness :
    ∃ record : String,
      logTaskToCSV (sampleEnv 9) (some "kept\n")
          (Task.mk 1 sampleDescription Status.Finished 7 9 10)
        = some ((some "kept\n").getD ""
            ++ (if (some "kept\n").isSome && (sampleEnv 9).readOk then "" else csvHeader)
            ++ record) ∧
      (parseCsvRecord FieldState.start [] record.toList)[1]? = some sampleDescription ∧
      (parseCsvRecord FieldState.start [] record.toList).length = 6 ∧
      parseCsvRecord FieldState.start [] record.toList
        = [toString (1 : Int), sampleDescription, toString (10 : Int),
            formatTime (sampleEnv 9).putTime 7, formatTime (sampleEnv 9).putTime 9,
            toString (actualDuration (Task.mk 1 sampleDescription Status.Finished 7 9 10))] :=
  escaping_round_trip (sampleEnv 9) (some "kept\n")
    (Task.mk 1 sampleDescription Status.Finished 7 9 10) rfl (by decide)
    (by
      intro t c hc
      have hc2 : c ∈ ['T'] := hc
      rw [List.mem_singleton] at hc2
      rw [hc2]
      refine ⟨?_, ?_, ?_⟩ <;> decide)

/-- C14, repeated finish: for every registry, log file and id, a second `finishTask(id)` right
after a first one changes nothing: the collections, `nextId` and the log file are those left by
the first call, so no second record is written; in particular after adding, starting and
finishing task 1. -/
theorem finishTask_twice (w : World) (env1 env2 : Env) (id : Int) :
    step (step w (env1, Op.finish id)) (env2, Op.finish id) = step w (env1, Op.finish id) ∧
    run (fresh none) [(sampleEnv 5, Op.add "Write report" 3600), (sampleEnv 6, Op.start 1),
        (sampleEnv 7, Op.finish 1), (sampleEnv 8, Op.finish 1)]
      = run (fresh none) [(sampleEnv 5, Op.add "Write report" 3600), (sampleEnv 6, Op.start 1),
        (sampleEnv 7, Op.finish 1)] := by
  have hgen : ∀ (v : World) (e1 e2 : Env) (k : Int),
      step (step v (e1, Op.finish k)) (e2, Op.finish k) = step v (e1, Op.finish k) := by
    intro v e1 e2 k
    have habs : ∀ t ∈ (step v (e1, Op.finish k)).sched.activeTasks, t.id ≠ k :=
      finishTask_active_absent e1 v.sched v.file k
    show World.mk ((step v (e1, Op.finish k)).sched.finishTask e2
        (step v (e1, Op.finish k)).file k).1 _ = _
    simp only [finishTask_absent e2 _ _ k habs]
  refine ⟨hgen w env1 env2 id, ?_⟩
  exact hgen (run (fresh none) [(sampleEnv 5, Op.add "Write report" 3600),
    (sampleEnv 6, Op.start 1)]) (sampleEnv 7) (sampleEnv 8) 1

/-- C15, actual duration and plain fields: for every task and a log file in any state that
opens for appending, the log writer leaves the old contents, adds the header line unless the
file was present and opened for reading, and then adds the six fields of the task joined by
commas and ended by a line feed; the first and third fields are the decimal renderings of the id
and of the estimate, a zero timestamp is rendered as `N/A`, and the last field is the rendering
of `finishTime - startTime` when both timestamps are not zero and of 0 otherwise. -/
theorem record_fields (env : Env) (file : Option String) (task : Task)
    (hopen : env.openOk = true) :
    logTaskToCSV env file task
      = some (file.getD "" ++ (if file.isSome && env.readOk then "" else csvHeader)
          ++ (",".intercalate
            [toString task.id, escapedDesc task.description,
              toString task.estimatedDurationSeconds,
              if task.startTime = 0 then "N/A" else env.putTime task.startTime,
              if task.finishTime = 0 then "N/A" else env.putTime task.finishTime,
              toString (if task.startTime ≠ 0 ∧ task.finishTime ≠ 0
                then task.finishTime - task.startTime else (0 : Int))] ++ "\n")) := by
  exact logTaskToCSV_appends env file task hopen

theorem record_fields_witness :
    logTaskToCSV (sampleEnv 9) none (Task.mk 1 "a" Status.Finished 7 9 10)
      = some ((none : Option String).getD ""
          ++ (if (none : Option String).isSome && (sampleEnv 9).readOk then "" else csvHeader)
          ++ (",".intercalate
            [toString (1 : Int), escapedDesc "a", toString (10 : Int),
              if (7 : Int) = 0 then "N/A" else (sampleEnv 9).putTime 7,
              if (9 : Int) = 0 then "N/A" else (sampleEnv 9).putTime 9,
              toString (if (7 : Int) ≠ 0 ∧ (9 : Int) ≠ 0 then (9 : Int) - 7 else (0 : Int))]
            ++ "\n")) :=
  record_fields (sampleEnv 9) none (Task.mk 1 "a" Status.Finished 7 9 10) rfl

/-- C16, persistence failure is not rolled back: when the log file cannot be opened for
appending and `T` is the first active task with its id, `finishTask(T.id)` leaves the log file
as it was, header included, while the registry is the one of the successful case: `T` and every
task with its id leave `activeTasks`, and `T` is appended to `finishedLog` with status Finished
and finish time the clock reading. -/
theorem finishTask_open_failure (env : Env) (s : Scheduler) (file : Option String)
    (pre post : List Task) (T : Task) (hfail : env.openOk = false)
    (hs : s.activeTasks = pre ++ T :: post) (hpre : ∀ x ∈ pre, x.id ≠ T.id) :
    (s.finishTask env file T.id).2 = file ∧
    (s.finishTask env file T.id).1 =
      Scheduler.mk s.stagedTasks (pre ++ eraseById post T.id)
        (s.finishedLog ++
          [Task.mk T.id T.description Status.Finished T.startTime env.now
            T.estimatedDurationSeconds])
        s.nextId ∧
    (s.finishTask env file T.id).1
      = (s.finishTask (Env.mk env.now env.readOk true env.putTime env.stale) file T.id).1 := by
  rw [finishTask_split env s file T.id pre post T hs hpre rfl,
    finishTask_split (Env.mk env.now env.readOk true env.putTime env.stale) s file T.id pre post T hs hpre
      rfl]
  refine ⟨?_, rfl, rfl⟩
  simp [logTaskToCSV, hfail]

theorem finishTask_open_failure_witness :
    ((reached none sampleCalls).finishTask (Env.mk 9 true false (fun _ => "T") (Task.ctor 0 "" 0))
        (some "kept") (Task.mk 1 "a" Status.Active 7 0 10).id).2 = some "kept" ∧
    ((reached none sampleCalls).finishTask (Env.mk 9 true false (fun _ => "T") (Task.ctor 0 "" 0))
        (some "kept") (Task.mk 1 "a" Status.Active 7 0 10).id).1 =
      Scheduler.mk (reached none sampleCalls).stagedTasks
        ([] ++ eraseById [Task.mk 2 "b" Status.Active 8 0 20] (Task.mk 1 "a" Status.Active 7 0 10).id)
        ((reached none sampleCalls).finishedLog ++ [Task.mk 1 "a" Status.Finished 7 9 10])
        (reached none sampleCalls).nextId ∧
    ((reached none sampleCalls).finishTask (Env.mk 9 true false (fun _ => "T") (Task.ctor 0 "" 0))
        (some "kept") (Task.mk 1 "a" Status.Active 7 0 10).id).1
      = ((reached none sampleCalls).finishTask (Env.mk 9 true true (fun _ => "T") (Task.ctor 0 "" 0))
        (some "kept") (Task.mk 1 "a" Status.Active 7 0 10).id).1 :=
  finishTask_open_failure (Env.mk 9 true false (fun _ => "T") (Task.ctor 0 "" 0))
    (reached none sampleCalls) (some "kept") [] [Task.mk 2 "b" Status.Active 8 0 20]
    (Task.mk 1 "a" Status.Active 7 0 10) rfl (by decide) (by decide)

/-- C17, immutable task data: in every registry reached from a fresh one, a task held in any
of the three collections has an id k of at least 1 and carries as description and estimate the
arguments of the k-th `addTask` call; and for every registry, each task present after a
`startTask` or `finishTask` call, found or not, has the id, description and estimate of a task
present before it. -/
theorem task_data_immutable (file : Option String) (calls : List (Env × Op)) :
    (∀ t ∈ allTasks (reached file calls), 1 ≤ t.id ∧
      (addArgs calls)[(t.id - 1).toNat]? = some (t.description, t.estimatedDurationSeconds)) ∧
    (∀ (w : World) (env : Env) (id : Int), ∀ t ∈ allTasks (step w (env, Op.start id)).sched,
      ∃ u ∈ allTasks w.sched, t.id = u.id ∧ t.description = u.description
        ∧ t.estimatedDurationSeconds = u.estimatedDurationSeconds) ∧
    (∀ (w : World) (env : Env) (id : Int), ∀ t ∈ allTasks (step w (env, Op.finish id)).sched,
      ∃ u ∈ allTasks w.sched, t.id = u.id ∧ t.description = u.description
        ∧ t.estimatedDurationSeconds = u.estimatedDurationSeconds) :=
  ⟨created_reached file calls, fun w env id => allTasks_startTask env w.sched id,
    fun w env id => allTasks_finishTask env w.sched w.file id⟩

/-- C18 as stated fails: the three operations return nothing. A `startTask` call on an id that
is not staged and one on a staged id return the same value, and so do a `finishTask` call on an
id that is not active and one on an active id; two `addTask` calls that assign different ids
return the same value; the handler of the panel shell shows the same status message after a
not-found call as after a successful one. -/
theorem outcome_not_returned :
    findTaskById 999 Scheduler.ctor.stagedTasks = none ∧
    findTaskById 1 (Scheduler.ctor.addTask "a" 10).stagedTasks = some 0 ∧
    Scheduler.ctor.startTaskReturn (sampleEnv 7) 999
      = (Scheduler.ctor.addTask "a" 10).startTaskReturn (sampleEnv 7) 1 ∧
    ftxuiStartStatus (sampleEnv 7) Scheduler.ctor 999
      = ftxuiStartStatus (sampleEnv 7) (Scheduler.ctor.addTask "a" 10) 1 ∧
    findTaskById 999 (reached none sampleCalls).activeTasks = none ∧
    findTaskById 1 (reached none sampleCalls).activeTasks = some 0 ∧
    (reached none sampleCalls).finishTaskReturn (sampleEnv 9) none 999
      = (reached none sampleCalls).finishTaskReturn (sampleEnv 9) none 1 ∧
    ftxuiFinishStatus (sampleEnv 9) (reached none sampleCalls) none 999
      = ftxuiFinishStatus (sampleEnv 9) (reached none sampleCalls) none 1 ∧
    (Scheduler.ctor.addTask "a" 10).stagedTasks.map Task.id = [1] ∧
    ((Scheduler.ctor.addTask "a" 10).addTask "b" 20).stagedTasks.map Task.id = [1, 2] ∧
    Scheduler.ctor.addTaskReturn "a" 10 = (Scheduler.ctor.addTask "a" 10).addTaskReturn "b" 20 := by
  decide

/-- C18 amended, the outcome is printed, not returned: `addTask` prints the id it assigned to
the task it appended; `startTask(id)` prints its not-found line exactly when no staged task has
the id and its `Started task` line otherwise; `finishTask(id)` prints its not-found line exactly
when no active task has the id and otherwise ends its output with its `Finished task` line. -/
theorem outcome_printed (env : Env) (s : Scheduler) (description : String) (estimate id : Int) :
    (∃ t : Task, (s.addTask description estimate).stagedTasks = s.stagedTasks ++ [t] ∧
      s.addTaskOut description estimate
        = "Added task [#" ++ toString t.id ++ "] to staged tasks.\n") ∧
    (s.startTaskOut id = "Task [#" ++ toString id ++ "] not found in staged tasks.\n"
      ↔ ∀ t ∈ s.stagedTasks, t.id ≠ id) ∧
    (¬ (∀ t ∈ s.stagedTasks, t.id ≠ id)
      → s.startTaskOut id = "Started task [#" ++ toString id ++ "].\n") ∧
    (s.finishTaskOut env id = "Task [#" ++ toString id ++ "] not found in active tasks.\n"
      ↔ ∀ t ∈ s.activeTasks, t.id ≠ id) ∧
    (¬ (∀ t ∈ s.activeTasks, t.id ≠ id)
      → s.finishTaskOut env id
        = logTaskToCSVOut env ++ ("Finished task [#" ++ toString id ++ "].\n")) := by
  refine ⟨⟨Task.ctor s.nextId description estimate, rfl, rfl⟩, ?_, ?_, ?_, ?_⟩
  · cases hf : findTaskById id s.stagedTasks with
    | none =>
      have habs := (findTaskById_eq_none id s.stagedTasks).mp hf
      simp only [Scheduler.startTaskOut, hf, true_iff]
      exact habs
    | some i =>
      have hpres : ¬ (∀ t ∈ s.stagedTasks, t.id ≠ id) := by
        intro habs
        rw [(findTaskById_eq_none id s.stagedTasks).mpr habs] at hf
        exact Option.noConfusion hf
      simp only [Scheduler.startTaskOut, hf]
      exact ⟨fun h => absurd h (started_ne_notFound _), fun h => absurd h hpres⟩
  · intro hpres
    cases hf : findTaskById id s.stagedTasks with
    | none => exact absurd ((findTaskById_eq_none id s.stagedTasks).mp hf) hpres
    | some i => simp only [Scheduler.startTaskOut, hf]
  · cases hf : findTaskById id s.activeTasks with
    | none =>
      have habs := (findTaskById_eq_none id s.activeTasks).mp hf
      simp only [Scheduler.finishTaskOut, hf, true_iff]
      exact habs
    | some i =>
      have hpres : ¬ (∀ t ∈ s.activeTasks, t.id ≠ id) := by
        intro habs
        rw [(findTaskById_eq_none id s.activeTasks).mpr habs] at hf
        exact Option.noConfusion hf
      have hout : logTaskToCSVOut env = "" ∨
          logTaskToCSVOut env = "Task logged to finished_tasks.csv\n" := by
        cases ho : env.openOk <;> simp [logTaskToCSVOut, ho]
      simp only [Scheduler.finishTaskOut, hf]
      exact ⟨fun h => absurd h (finished_ne_notFound _ _ hout), fun h => absurd h hpres⟩
  · intro hpres
    cases hf : findTaskById id s.activeTasks with
    | none => exact absurd ((findTaskById_eq_none id s.activeTasks).mp hf) hpres
    | some i => simp only [Scheduler.finishTaskOut, hf]

/-- C19 as stated fails: `getDetails` is not a function of the task alone. For one and the same
started task the text differs with what `std::ctime` returns for its start time, which depends
on the time zone of the process. -/
theorem getDetails_depends_on_ctime :
    (Task.mk 1 "a" Status.Active 7 0 10).getDetails (fun _ => some "Thu Jan  1 00:00:07 1970\n")
      = "[#1] a | Status: Active | Estimate: 10 sec | Start: Thu Jan  1 00:00:07 1970"
        ++ " | Finish: N/A" ∧
    (Task.mk 1 "a" Status.Active 7 0 10).getDetails (fun _ => some "Thu Jan  1 05:30:07 1970\n")
      = "[#1] a | Status: Active | Estimate: 10 sec | Start: Thu Jan  1 05:30:07 1970"
        ++ " | Finish: N/A" ∧
    (Task.mk 1 "a" Status.Active 7 0 10).getDetails (fun _ => some "Thu Jan  1 00:00:07 1970\n")
      ≠ (Task.mk 1 "a" Status.Active 7 0 10).getDetails
          (fun _ => some "Thu Jan  1 05:30:07 1970\n") := by
  decide

/-- C19 amended, summary format: for every task whose start and finish times are both zero,
whatever `std::ctime` would return, so as a function of the task alone, `getDetails` gives
`[#id] description | Status: label | Estimate: estimate sec | Start: N/A | Finish: N/A`, with
the label `Staged`, `Active` or `Finished` of the task's status. -/
theorem getDetails_format (ctime : Int → Option String) (t : Task) (hstart : t.startTime = 0)
    (hfinish : t.finishTime = 0) :
    t.getDetails ctime = "[#" ++ toString t.id ++ "] " ++ t.description ++ " | Status: "
      ++ statusStr t.status ++ " | Estimate: " ++ toString t.estimatedDurationSeconds
      ++ " sec | Start: N/A | Finish: N/A" ∧
    statusStr Status.Staged = "Staged" ∧ statusStr Status.Active = "Active" ∧
      statusStr Status.Finished = "Finished" := by
  refine ⟨?_, rfl, rfl, rfl⟩
  simp [Task.getDetails, hstart, hfinish, String.append_assoc]

theorem getDetails_format_witness :
    (Task.ctor 1 "Write report" 3600).getDetails (fun _ => none)
      = "[#" ++ toString (1 : Int) ++ "] " ++ "Write report" ++ " | Status: "
        ++ statusStr Status.Staged ++ " | Estimate: " ++ toString (3600 : Int)
        ++ " sec | Start: N/A | Finish: N/A" ∧
    statusStr Status.Staged = "Staged" ∧ statusStr Status.Active = "Active" ∧
      statusStr Status.Finished = "Finished" :=
  getDetails_format (fun _ => none) (Task.ctor 1 "Write report" 3600) rfl rfl

/-- C20, `markActive` and `markFinished` overwrite: for every task in any status `markActive`
sets the status to Active and the start time to the clock reading and keeps id, description,
estimate and finish time, so a second call leaves the later reading as start time;
`markFinished` sets the status to Finished and the finish time to the clock reading and keeps
id, description, estimate and start time, a second call again overwriting the first. -/
theorem mark_overwrites (t : Task) (t1 t2 : Int) :
    t.markActive t1
      = Task.mk t.id t.description Status.Active t1 t.finishTime t.estimatedDurationSeconds ∧
    (t.markActive t1).markActive t2
      = Task.mk t.id t.description Status.Active t2 t.finishTime t.estimatedDurationSeconds ∧
    t.markFinished t1
      = Task.mk t.id t.description Status.Finished t.startTime t1 t.estimatedDurationSeconds ∧
    (t.markFinished t1).markFinished t2
      = Task.mk t.id t.description Status.Finished t.startTime t2 t.estimatedDurationSeconds :=
  ⟨rfl, rfl, rfl, rfl⟩

/-- C21, lookup tie-break: for every registry, also one whose `stagedTasks` holds several tasks
with the id, when `T` is the first staged task with the id, `startTask(id)` appends to
`activeTasks` exactly one task, `T` marked Active, and leaves in `stagedTasks` the tasks of
other ids in their order, every task with the id being erased; `finishTask(id)` does the same
from `activeTasks` to `finishedLog` with the first active task with the id, marked Finished. -/
theorem lookup_first_match (env : Env) (s : Scheduler) (file : Option String) (id : Int) :
    (∀ (pre post : List Task) (T : Task), s.stagedTasks = pre ++ T :: post →
      (∀ x ∈ pre, x.id ≠ id) → T.id = id →
      (s.startTask env id).activeTasks = s.activeTasks ++ [T.markActive env.now] ∧
      (s.startTask env id).stagedTasks = pre ++ eraseById post id ∧
      (s.startTask env id).stagedTasks = s.stagedTasks.filter (fun x => !decide (x.id = id)) ∧
      (∀ x ∈ (s.startTask env id).stagedTasks, x.id ≠ id)) ∧
    (∀ (pre post : List Task) (T : Task), s.activeTasks = pre ++ T :: post →
      (∀ x ∈ pre, x.id ≠ id) → T.id = id →
      (s.finishTask env file id).1.finishedLog = s.finishedLog ++ [T.markFinished env.now] ∧
      (s.finishTask env file id).1.activeTasks = pre ++ eraseById post id ∧
      (s.finishTask env file id).1.activeTasks
        = s.activeTasks.filter (fun x => !decide (x.id = id)) ∧
      (∀ x ∈ (s.finishTask env file id).1.activeTasks, x.id ≠ id)) := by
  constructor
  · intro pre post T hs hpre hT
    have hsplit := startTask_split env s id pre post T hs hpre hT
    have hst := startTask_staged env s id
    refine ⟨by rw [hsplit], by rw [hsplit], hst, ?_⟩
    intro x hx
    rw [hst] at hx
    exact ((mem_eraseById _ _ _).mp hx).2
  · intro pre post T hs hpre hT
    have hsplit := finishTask_split env s file id pre post T hs hpre hT
    have hact := finishTask_active env s file id
    refine ⟨by rw [hsplit], by rw [hsplit], hact, ?_⟩
    intro x hx
    rw [hact] at hx
    exact ((mem_eraseById _ _ _).mp hx).2

theorem lookup_first_match_witness :
    (sampleDuplicates.startTask (sampleEnv 9) 1).activeTasks
      = sampleDuplicates.activeTasks ++ [(Task.ctor 1 "a" 10).markActive (sampleEnv 9).now] ∧
    (sampleDuplicates.startTask (sampleEnv 9) 1).stagedTasks
      = [Task.ctor 2 "x" 5] ++ eraseById [Task.ctor 3 "y" 6, Task.ctor 1 "b" 20] 1 ∧
    (sampleDuplicates.finishTask (sampleEnv 9) none 1).1.finishedLog
      = sampleDuplicates.finishedLog
        ++ [(Task.mk 1 "c" Status.Active 4 0 30).markFinished (sampleEnv 9).now] ∧
    (sampleDuplicates.finishTask (sampleEnv 9) none 1).1.activeTasks
      = [] ++ eraseById [Task.mk 7 "z" Status.Active 5 0 8, Task.mk 1 "d" Status.Active 6 0 40] 1 :=
  ⟨((lookup_first_match (sampleEnv 9) sampleDuplicates none 1).1 [Task.ctor 2 "x" 5]
      [Task.ctor 3 "y" 6, Task.ctor 1 "b" 20] (Task.ctor 1 "a" 10) rfl (by decide) rfl).1,
    ((lookup_first_match (sampleEnv 9) sampleDuplicates none 1).1 [Task.ctor 2 "x" 5]
      [Task.ctor 3 "y" 6, Task.ctor 1 "b" 20] (Task.ctor 1 "a" 10) rfl (by decide) rfl).2.1,
    ((lookup_first_match (sampleEnv 9) sampleDuplicates none 1).2 []
      [Task.mk 7 "z" Status.Active 5 0 8, Task.mk 1 "d" Status.Active 6 0 40]
      (Task.mk 1 "c" Status.Active 4 0 30) rfl (by decide) rfl).1,
    ((lookup_first_match (sampleEnv 9) sampleDuplicates none 1).2 []
      [Task.mk 7 "z" Status.Active 5 0 8, Task.mk 1 "d" Status.Active 6 0 40]
      (Task.mk 1 "c" Status.Active 4 0 30) rfl (by decide) rfl).2.1⟩

/-- C22, listing order: in every registry reached from a fresh one the staged ids increase
strictly; the active ids are the ids of the `startTask` calls that found their task, in call
order, without those of the `finishTask` calls that found theirs; the finished ids are the ids
of the `finishTask` calls that found their task, in call order. In every registry `startTask`
and `finishTask` leave in the collection they take from exactly the tasks of other ids, in the
order they had. -/
theorem listing_order (file : Option String) (calls : List (Env × Op)) :
    ((reached file calls).stagedTasks.map Task.id).Pairwise (· < ·) ∧
    (reached file calls).activeTasks.map Task.id
      = (startOrder (fresh file) calls).filter
          (fun k => !decide (k ∈ finishOrder (fresh file) calls)) ∧
    (reached file calls).finishedLog.map Task.id = finishOrder (fresh file) calls ∧
    (∀ (env : Env) (s : Scheduler) (id : Int),
      (s.startTask env id).stagedTasks = s.stagedTasks.filter (fun x => !decide (x.id = id)) ∧
      List.Sublist (s.startTask env id).stagedTasks s.stagedTasks) ∧
    (∀ (env : Env) (s : Scheduler) (log : Option String) (id : Int),
      (s.finishTask env log id).1.activeTasks
        = s.activeTasks.filter (fun x => !decide (x.id = id)) ∧
      List.Sublist (s.finishTask env log id).1.activeTasks s.activeTasks) := by
  refine ⟨(stagedSorted_reached file calls).1, active_order file calls,
    finished_order file calls, ?_, ?_⟩
  · intro env s id
    have h := startTask_staged env s id
    refine ⟨h, ?_⟩
    rw [h]
    exact List.filter_sublist _
  · intro env s log id
    have h := finishTask_active env s log id
    refine ⟨h, ?_⟩
    rw [h]
    exact List.filter_sublist _

end TaskScheduler
